import Mathlib

/-!
Shallow embedding of the `SparseMatrix` JavaScript class (file
`code/src/SparseMatrix.js` of the repository, whose full text is bundled in
`test.sh`).  Strings are modelled as `List Char`; JavaScript numbers that the
program uses as integers are modelled as `Int`; code that throws is modelled
in `Except String`.  The JavaScript object `this.elements`, keyed by the
string `row + "," + col`, is modelled as an association list keyed by the
pair `(row, col)` (the decimal renderings of two integers joined by a comma
are in bijection with the pairs, and JavaScript collapses `-0` to `0` both in
keys and in `===` comparisons, as does `Int`).  Iteration order of `for..in`
over such non-index string keys is insertion order, which the list order
models.
-/

namespace SpecProof

abbrev Entry := (Int × Int) × Int

/-- Whitespace test of the hand-written `_trim` (space, tab, newline, carriage return). -/
def isWS (c : Char) : Bool := c = ' ' || c = '\t' || c = '\n' || c = '\r'

/-- Model of `_trim`: drop leading and trailing whitespace. -/
def trimChars (s : List Char) : List Char :=
  ((s.dropWhile isWS).reverse.dropWhile isWS).reverse

/-- Worker for `_splitString` with a single-character delimiter (the class only
ever splits on the one-character strings `"\n"` and `","`). -/
def splitAux (d : Char) : List Char → List Char → List (List Char)
  | [], acc => [acc.reverse]
  | c :: rest, acc =>
    if c = d then acc.reverse :: splitAux d rest [] else splitAux d rest (c :: acc)

/-- Model of `_splitString`. -/
def splitString (s : List Char) (d : Char) : List (List Char) := splitAux d s []

/-- Digit-by-digit accumulator loop of `_parseInt`; `none` models `NaN`. -/
def digitsVal : List Char → Nat → Option Nat
  | [], acc => some acc
  | c :: rest, acc =>
    if c < '0' ∨ '9' < c then none
    else digitsVal rest (acc * 10 + (c.toNat - 48))

/-- Model of `_parseInt`: empty string is `NaN`; a leading `-` sets the sign and
the remaining characters (possibly none, giving `-0 = 0`) must be digits. -/
def jsParseInt (s : List Char) : Option Int :=
  if s = [] then none
  else if s.head? = some '-' then (digitsVal (s.drop 1) 0).map fun n => -(n : Int)
  else (digitsVal s 0).map fun n => (n : Int)

/-- Model of `_parseElementLine`: parentheses at both ends, exactly three
comma-separated parts, each trimmed part an integer token. -/
def parseElementLine (line : List Char) : Option (Int × Int × Int) :=
  if line.head? = some '(' ∧ line.getLast? = some ')' then
    match splitString ((line.drop 1).dropLast) ',' with
    | [p0, p1, p2] =>
      match jsParseInt (trimChars p0), jsParseInt (trimChars p1), jsParseInt (trimChars p2) with
      | some r, some c, some v => some (r, c, v)
      | _, _, _ => none
    | _ => none
  else none

structure SparseMatrix where
  rows : Int
  cols : Int
  elements : List Entry
  elementCount : Int
  deriving DecidableEq, Repr

/-- Constructor path `new SparseMatrix(null, numRows, numCols)`. -/
def newMatrix (r c : Int) : SparseMatrix := ⟨r, c, [], 0⟩

/-- Lookup `this.elements[key]` on the association list. -/
def lookupKey : List Entry → (Int × Int) → Option Int
  | [], _ => none
  | (k, v) :: rest, key => if k = key then some v else lookupKey rest key

/-- Model of `delete this.elements[key]` (the key occurs at most once). -/
def eraseKey : List Entry → (Int × Int) → List Entry
  | [], _ => []
  | (k, v) :: rest, key => if k = key then rest else (k, v) :: eraseKey rest key

/-- Overwrite of an existing key, keeping its position. -/
def updateKey : List Entry → (Int × Int) → Int → List Entry
  | [], _, _ => []
  | (k, v) :: rest, key, value =>
    if k = key then (k, value) :: rest else (k, v) :: updateKey rest key value

def oobMsg : String := "Index out of bounds"
def fmtInsufficient : String := "Input file has wrong format: insufficient data"
def fmtRowsSpec : String := "Input file has wrong format: rows specification not found"
def fmtColsSpec : String := "Input file has wrong format: columns specification not found"
def fmtInvalidDims : String := "Input file has wrong format: invalid dimensions"
def fmtBadLine : String := "Input file has wrong format at line"
def wrongFormatMsg : String := "Input file has wrong format"

/-- Model of `getElement`. -/
def getElement (m : SparseMatrix) (row col : Int) : Except String Int :=
  if row < 0 ∨ row ≥ m.rows ∨ col < 0 ∨ col ≥ m.cols then .error oobMsg
  else .ok ((lookupKey m.elements (row, col)).getD 0)

/-- Model of `setElement`. -/
def setElement (m : SparseMatrix) (row col value : Int) : Except String SparseMatrix :=
  if row < 0 ∨ row ≥ m.rows ∨ col < 0 ∨ col ≥ m.cols then .error oobMsg
  else if value = 0 then
    if (lookupKey m.elements (row, col)).isSome then
      .ok { m with elements := eraseKey m.elements (row, col),
                   elementCount := m.elementCount - 1 }
    else .ok m
  else
    if (lookupKey m.elements (row, col)).isSome then
      .ok { m with elements := updateKey m.elements (row, col) value }
    else
      .ok { m with elements := m.elements ++ [((row, col), value)],
                   elementCount := m.elementCount + 1 }

/-- Model of the prefix test `line.startsWith(pre)`. -/
def isPre : List Char → List Char → Bool
  | [], _ => true
  | _ :: _, [] => false
  | a :: as, b :: bs => a = b && isPre as bs

/-- Model of `message.includes(pat)`. -/
def containsSub : List Char → List Char → Bool
  | [], pat => pat.isEmpty
  | c :: rest, pat => isPre pat (c :: rest) || containsSub rest pat

/-- Non-blank trimmed lines of the document (`validLines` in `loadFromFile`). -/
def validLinesOf (data : List Char) : List (List Char) :=
  (splitString data '\n').filterMap fun l =>
    if trimChars l = [] then none else some (trimChars l)

/-- First pass of `loadFromFile` over the entry lines; `none` models the throw
at the first malformed line. -/
def parseEntries : List (List Char) → Option (List (Int × Int × Int))
  | [] => some []
  | l :: rest =>
    match parseElementLine l, parseEntries rest with
    | some e, some es => some (e :: es)
    | _, _ => none

/-- Running maximum of the row coordinates, starting from `0` as the source does. -/
def maxRowOf (es : List (Int × Int × Int)) : Int := es.foldl (fun acc e => max acc e.1) 0

/-- Running maximum of the column coordinates, starting from `0` as the source does. -/
def maxColOf (es : List (Int × Int × Int)) : Int := es.foldl (fun acc e => max acc e.2.1) 0

/-- Second pass of `loadFromFile`: commit the non-zero entries through `setElement`. -/
def commitEntries : SparseMatrix → List (Int × Int × Int) → Except String SparseMatrix
  | m, [] => .ok m
  | m, (r, c, v) :: rest =>
    if v ≠ 0 then
      match setElement m r c v with
      | .ok m2 => commitEntries m2 rest
      | .error e => .error e
    else commitEntries m rest

/-- Body of the `try` block of `loadFromFile`, acting on the raw text. -/
def loadInner (data : List Char) : Except String SparseMatrix :=
  if (validLinesOf data).length < 3 then .error fmtInsufficient
  else if isPre "rows=".data ((validLinesOf data).headD []) = false then .error fmtRowsSpec
  else if isPre "cols=".data (((validLinesOf data).drop 1).headD []) = false then .error fmtColsSpec
  else
    match jsParseInt (((validLinesOf data).headD []).drop 5),
          jsParseInt ((((validLinesOf data).drop 1).headD []).drop 5) with
    | some r, some c =>
      if r ≤ 0 ∨ c ≤ 0 then .error fmtInvalidDims
      else
        match parseEntries ((validLinesOf data).drop 2) with
        | none => .error fmtBadLine
        | some es =>
          if maxRowOf es ≥ r ∨ maxColOf es ≥ c then
            commitEntries ⟨maxRowOf es + 1, maxColOf es + 1, [], 0⟩ es
          else commitEntries ⟨r, c, [], 0⟩ es
    | _, _ => .error fmtInvalidDims

/-- Model of `loadFromFile` including its `catch` clause, which replaces any
message containing `"wrong format"` by the uniform message and rethrows
anything else unchanged. -/
def loadFromFile (data : List Char) : Except String SparseMatrix :=
  match loadInner data with
  | .ok m => .ok m
  | .error msg =>
    if containsSub msg.data "wrong format".data then .error wrongFormatMsg
    else .error msg

def addMismatchMsg : String := "Matrix dimensions do not match for addition"
def subMismatchMsg : String := "Matrix dimensions do not match for subtraction"
def mulMismatchMsg : String := "Matrix dimensions do not match for multiplication"

/-- First loop of `add` and of `subtract`: copy the entries of the left operand. -/
def copyEntries : SparseMatrix → List Entry → Except String SparseMatrix
  | res, [] => .ok res
  | res, ((r, c), v) :: rest =>
    match setElement res r c v with
    | .ok res2 => copyEntries res2 rest
    | .error e => .error e

/-- Second loop of `add`: read-modify-write each entry of the right operand. -/
def addEntries : SparseMatrix → List Entry → Except String SparseMatrix
  | res, [] => .ok res
  | res, ((r, c), v) :: rest =>
    match getElement res r c with
    | .error e => .error e
    | .ok cur =>
      match setElement res r c (cur + v) with
      | .ok res2 => addEntries res2 rest
      | .error e => .error e

/-- Second loop of `subtract`. -/
def subEntries : SparseMatrix → List Entry → Except String SparseMatrix
  | res, [] => .ok res
  | res, ((r, c), v) :: rest =>
    match getElement res r c with
    | .error e => .error e
    | .ok cur =>
      match setElement res r c (cur - v) with
      | .ok res2 => subEntries res2 rest
      | .error e => .error e

/-- Model of `add`. -/
def add (a b : SparseMatrix) : Except String SparseMatrix :=
  if a.rows ≠ b.rows ∨ a.cols ≠ b.cols then .error addMismatchMsg
  else
    match copyEntries (newMatrix a.rows a.cols) a.elements with
    | .error e => .error e
    | .ok r1 => addEntries r1 b.elements

/-- Model of `subtract`. -/
def subtract (a b : SparseMatrix) : Except String SparseMatrix :=
  if a.rows ≠ b.rows ∨ a.cols ≠ b.cols then .error subMismatchMsg
  else
    match copyEntries (newMatrix a.rows a.cols) a.elements with
    | .error e => .error e
    | .ok r1 => subEntries r1 b.elements

/-- Inner loop of `multiply` over the entries of the right operand, for one
fixed entry `(rowA, colA, valA)` of the left operand. -/
def multInner (rowA colA valA : Int) : SparseMatrix → List Entry → Except String SparseMatrix
  | res, [] => .ok res
  | res, ((rowB, colB), valB) :: rest =>
    if colA = rowB then
      if valA * valB ≠ 0 then
        match getElement res rowA colB with
        | .error e => .error e
        | .ok cur =>
          match setElement res rowA colB (cur + valA * valB) with
          | .ok res2 => multInner rowA colA valA res2 rest
          | .error e => .error e
      else multInner rowA colA valA res rest
    else multInner rowA colA valA res rest

/-- Outer loop of `multiply` over the entries of the left operand. -/
def multOuter (bl : List Entry) : SparseMatrix → List Entry → Except String SparseMatrix
  | res, [] => .ok res
  | res, ((rowA, colA), valA) :: rest =>
    match multInner rowA colA valA res bl with
    | .ok res2 => multOuter bl res2 rest
    | .error e => .error e

/-- Model of `multiply`. -/
def multiply (a b : SparseMatrix) : Except String SparseMatrix :=
  if a.cols ≠ b.rows then .error mulMismatchMsg
  else multOuter b.elements (newMatrix a.rows b.cols) a.elements

/-- Fuel-based decimal rendering of a natural number (structural recursion so
that the kernel can evaluate it; the fuel is always sufficient). -/
def natToCharsAux : Nat → Nat → List Char
  | 0, _ => []
  | fuel + 1, n =>
    if n < 10 then [Char.ofNat (48 + n)]
    else natToCharsAux fuel (n / 10) ++ [Char.ofNat (48 + n % 10)]

/-- Decimal rendering of a natural number, as template literals render it. -/
def natToChars (n : Nat) : List Char := natToCharsAux (n + 1) n

/-- Decimal rendering of an integer, as `(${value})` renders an integer-valued
JavaScript number. -/
def intToChars : Int → List Char
  | .ofNat n => natToChars n
  | .negSucc n => '-' :: natToChars (n + 1)

/-- Comparator of `toString` (ascending row, then ascending column). -/
def entryLE (a b : Entry) : Bool :=
  decide (a.1.1 < b.1.1 ∨ (a.1.1 = b.1.1 ∧ a.1.2 ≤ b.1.2))

/-- Ordered insertion used to model the comparator sort of `toString`. -/
def insertEntry (e : Entry) : List Entry → List Entry
  | [] => [e]
  | f :: rest => if entryLE e f then e :: f :: rest else f :: insertEntry e rest

/-- Sort of the entries by `(row, col)`; the comparator is a total order on the
distinct keys, so any sorting algorithm produces this list. -/
def sortEntries : List Entry → List Entry
  | [] => []
  | e :: rest => insertEntry e (sortEntries rest)

/-- Rendering of one entry line `(row, col, value)` of `toString`. -/
def entryLine (e : Entry) : List Char :=
  ['('] ++ intToChars e.1.1 ++ [',', ' '] ++ intToChars e.1.2 ++ [',', ' '] ++
    intToChars e.2 ++ [')']

/-- Model of `toString`: header then one line per stored entry, sorted. -/
def toString (m : SparseMatrix) : List Char :=
  "rows=".data ++ intToChars m.rows ++ ['\n'] ++ "cols=".data ++ intToChars m.cols ++ ['\n'] ++
    (sortEntries m.elements).foldl (fun acc e => acc ++ entryLine e ++ ['\n']) []

example : jsParseInt "123".data = some 123 := rfl
example : jsParseInt "-45".data = some (-45) := rfl
example : jsParseInt "-".data = some 0 := rfl
example : jsParseInt "12x".data = none := rfl
example : jsParseInt "".data = none := rfl
example : parseElementLine "(1, 2, 3)".data = some (1, 2, 3) := rfl
example : parseElementLine "(1, 2, x)".data = none := rfl
example : loadFromFile "rows=2\ncols=2\n(5, 0, 7)".data = .ok ⟨6, 1, [((5, 0), 7)], 1⟩ := rfl
example : loadFromFile "rows=2\ncols=2\n(1,1,x)".data = .error wrongFormatMsg := rfl
example : loadFromFile "rows=2\ncols=2\n(0,0,0)".data = .ok ⟨2, 2, [], 0⟩ := rfl
example : toString ⟨2, 2, [], 0⟩ = "rows=2\ncols=2\n".data := rfl
example : loadFromFile (toString ⟨2, 2, [], 0⟩) = .error wrongFormatMsg := rfl
example : toString ⟨2, 2, [((1, 0), 3), ((0, 1), -2)], 2⟩ =
    "rows=2\ncols=2\n(0, 1, -2)\n(1, 0, 3)\n".data := rfl
example : loadFromFile "rows=2\ncols=2\n(-1, 0, 5)".data = .error oobMsg := rfl
example : loadFromFile "rows=2\ncols=2\n(-1, 0, 0)".data = .ok ⟨2, 2, [], 0⟩ := rfl
example : loadFromFile "rows=1\ncols=1\n(0, 0, -)".data = .ok ⟨1, 1, [], 0⟩ := rfl

/-! ## Invariants and the value function -/

def keysOf (l : List Entry) : List (Int × Int) := l.map fun e => e.1

def NodupKeys (l : List Entry) : Prop := (keysOf l).Nodup

/-- Every stored coordinate lies inside the declared dimensions. -/
def InBounds (m : SparseMatrix) : Prop :=
  ∀ e ∈ m.elements, 0 ≤ e.1.1 ∧ e.1.1 < m.rows ∧ 0 ≤ e.1.2 ∧ e.1.2 < m.cols

/-- Sparsity invariant of the spec: no stored zero value, and `elementCount`
equals the number of stored entries. -/
def Sparsity (m : SparseMatrix) : Prop :=
  (∀ e ∈ m.elements, e.2 ≠ 0) ∧ m.elementCount = (m.elements.length : Int)

/-- Mathematical value of the matrix at a coordinate: the stored value, or 0. -/
def val (m : SparseMatrix) (i j : Int) : Int := (lookupKey m.elements (i, j)).getD 0

instance (l : List Entry) : Decidable (NodupKeys l) := by
  unfold NodupKeys
  infer_instance

instance (m : SparseMatrix) : Decidable (InBounds m) := by
  unfold InBounds
  infer_instance

instance (m : SparseMatrix) : Decidable (Sparsity m) := by
  unfold Sparsity
  infer_instance

/-! ## Association-list lemmas -/

theorem lookupKey_eq_none {l : List Entry} {k : Int × Int} :
    lookupKey l k = none ↔ k ∉ keysOf l := by
  induction l with
  | nil => simp [lookupKey, keysOf]
  | cons e rest ih =>
    obtain ⟨k0, v0⟩ := e
    by_cases h : k0 = k
    · subst h; simp [lookupKey, keysOf]
    · simp [lookupKey, keysOf, h, ih, Ne.symm h]

theorem lookupKey_isSome {l : List Entry} {k : Int × Int} :
    (lookupKey l k).isSome = true ↔ k ∈ keysOf l := by
  rw [Option.isSome_iff_ne_none, Ne, lookupKey_eq_none, not_not]

theorem keysOf_updateKey (l : List Entry) (k : Int × Int) (v : Int) :
    keysOf (updateKey l k v) = keysOf l := by
  induction l with
  | nil => rfl
  | cons e rest ih =>
    obtain ⟨k0, v0⟩ := e
    by_cases h : k0 = k
    · simp [updateKey, keysOf, h]
    · simp only [updateKey, if_neg h, keysOf, List.map_cons]
      simpa [keysOf] using ih

theorem mem_updateKey {l : List Entry} {k : Int × Int} {v : Int} {e : Entry}
    (h : e ∈ updateKey l k v) : e ∈ l ∨ e = (k, v) := by
  induction l with
  | nil => simp [updateKey] at h
  | cons f rest ih =>
    obtain ⟨k0, v0⟩ := f
    by_cases hk : k0 = k
    · simp [updateKey, hk] at h
      rcases h with h | h
      · right; simp [h, hk]
      · left; simp [h]
    · simp [updateKey, hk] at h
      rcases h with h | h
      · left; simp [h]
      · rcases ih h with h2 | h2
        · left; simp [h2]
        · right; exact h2

theorem updateKey_length (l : List Entry) (k : Int × Int) (v : Int) :
    (updateKey l k v).length = l.length := by
  induction l with
  | nil => rfl
  | cons f rest ih =>
    obtain ⟨k0, v0⟩ := f
    by_cases hk : k0 = k <;> simp [updateKey, hk, ih]

theorem lookupKey_updateKey_self {l : List Entry} {k : Int × Int} {v : Int}
    (h : (lookupKey l k).isSome = true) : lookupKey (updateKey l k v) k = some v := by
  induction l with
  | nil => simp [lookupKey] at h
  | cons f rest ih =>
    obtain ⟨k0, v0⟩ := f
    by_cases hk : k0 = k
    · simp [updateKey, lookupKey, hk]
    · simp [updateKey, lookupKey, hk] at h ⊢
      exact ih h

theorem lookupKey_updateKey_ne {l : List Entry} {k k2 : Int × Int} {v : Int}
    (h : k2 ≠ k) : lookupKey (updateKey l k v) k2 = lookupKey l k2 := by
  induction l with
  | nil => rfl
  | cons f rest ih =>
    obtain ⟨k0, v0⟩ := f
    by_cases hk : k0 = k
    · subst hk
      simp [updateKey, lookupKey, Ne.symm h]
    · by_cases hk2 : k0 = k2
      · subst hk2; simp [updateKey, lookupKey, hk]
      · simp [updateKey, lookupKey, hk, hk2, ih]

theorem eraseKey_sublist (l : List Entry) (k : Int × Int) : (eraseKey l k).Sublist l := by
  induction l with
  | nil => simp [eraseKey]
  | cons f rest ih =>
    obtain ⟨k0, v0⟩ := f
    by_cases hk : k0 = k
    · simp only [eraseKey, if_pos hk]
      exact List.sublist_cons_self _ _
    · simp only [eraseKey, if_neg hk]
      exact ih.cons₂ _

theorem mem_eraseKey {l : List Entry} {k : Int × Int} {e : Entry}
    (h : e ∈ eraseKey l k) : e ∈ l := (eraseKey_sublist l k).mem h

theorem nodup_eraseKey {l : List Entry} {k : Int × Int} (h : NodupKeys l) :
    NodupKeys (eraseKey l k) := by
  exact h.sublist ((eraseKey_sublist l k).map _)

theorem eraseKey_length {l : List Entry} {k : Int × Int}
    (h : (lookupKey l k).isSome = true) : l.length = (eraseKey l k).length + 1 := by
  induction l with
  | nil => simp [lookupKey] at h
  | cons f rest ih =>
    obtain ⟨k0, v0⟩ := f
    by_cases hk : k0 = k
    · simp [eraseKey, hk]
    · simp [lookupKey, hk] at h
      simp [eraseKey, hk, ih h]

theorem lookupKey_eraseKey_self {l : List Entry} {k : Int × Int} (h : NodupKeys l) :
    lookupKey (eraseKey l k) k = none := by
  induction l with
  | nil => rfl
  | cons f rest ih =>
    obtain ⟨k0, v0⟩ := f
    simp only [NodupKeys, keysOf, List.map_cons, List.nodup_cons] at h
    by_cases hk : k0 = k
    · subst hk
      simp only [eraseKey, if_pos rfl]
      rw [lookupKey_eq_none]
      exact h.1
    · simp only [eraseKey, if_neg hk, lookupKey, if_neg hk]
      exact ih h.2

theorem lookupKey_eraseKey_ne {l : List Entry} {k k2 : Int × Int}
    (h : k2 ≠ k) : lookupKey (eraseKey l k) k2 = lookupKey l k2 := by
  induction l with
  | nil => rfl
  | cons f rest ih =>
    obtain ⟨k0, v0⟩ := f
    by_cases hk : k0 = k
    · subst hk
      simp [eraseKey, lookupKey, Ne.symm h]
    · by_cases hk2 : k0 = k2
      · subst hk2; simp [eraseKey, lookupKey, hk]
      · simp [eraseKey, lookupKey, hk, hk2, ih]

theorem lookupKey_append_left {l1 l2 : List Entry} {k : Int × Int} {v : Int}
    (h : lookupKey l1 k = some v) : lookupKey (l1 ++ l2) k = some v := by
  induction l1 with
  | nil => simp [lookupKey] at h
  | cons f rest ih =>
    obtain ⟨k0, v0⟩ := f
    by_cases hk : k0 = k <;> simp_all [lookupKey]

theorem lookupKey_append_right {l1 l2 : List Entry} {k : Int × Int}
    (h : lookupKey l1 k = none) : lookupKey (l1 ++ l2) k = lookupKey l2 k := by
  induction l1 with
  | nil => rfl
  | cons f rest ih =>
    obtain ⟨k0, v0⟩ := f
    by_cases hk : k0 = k <;> simp_all [lookupKey]

theorem nodup_append_key {l : List Entry} {k : Int × Int} {v : Int}
    (h : NodupKeys l) (hk : lookupKey l k = none) : NodupKeys (l ++ [(k, v)]) := by
  rw [lookupKey_eq_none] at hk
  simp only [NodupKeys, keysOf, List.map_append, List.map_cons, List.map_nil] at h ⊢
  rw [List.nodup_append]
  refine ⟨h, List.nodup_singleton _, ?_⟩
  intro x hx hmem
  simp only [List.mem_singleton] at hmem
  subst hmem
  exact hk hx

/-! ## Specifications of the element accessors -/

theorem getElement_ok {m : SparseMatrix} {r c : Int}
    (h1 : 0 ≤ r) (h2 : r < m.rows) (h3 : 0 ≤ c) (h4 : c < m.cols) :
    getElement m r c = .ok (val m r c) := by
  unfold getElement val
  rw [if_neg (by omega)]

theorem getElement_error_iff (m : SparseMatrix) (r c : Int) :
    getElement m r c = .error oobMsg ↔ (r < 0 ∨ r ≥ m.rows ∨ c < 0 ∨ c ≥ m.cols) := by
  unfold getElement
  by_cases h : r < 0 ∨ r ≥ m.rows ∨ c < 0 ∨ c ≥ m.cols <;> simp [h]

theorem setElement_error_iff (m : SparseMatrix) (r c v : Int) :
    setElement m r c v = .error oobMsg ↔ (r < 0 ∨ r ≥ m.rows ∨ c < 0 ∨ c ≥ m.cols) := by
  unfold setElement
  by_cases h : r < 0 ∨ r ≥ m.rows ∨ c < 0 ∨ c ≥ m.cols
  · simp [h]
  · rw [if_neg h]
    split_ifs <;> simp [h]

theorem setElement_ok_ex {m : SparseMatrix} {r c : Int} (v : Int)
    (h1 : 0 ≤ r) (h2 : r < m.rows) (h3 : 0 ≤ c) (h4 : c < m.cols) :
    ∃ m2, setElement m r c v = .ok m2 := by
  unfold setElement
  rw [if_neg (by omega)]
  split_ifs <;> exact ⟨_, rfl⟩

/-- Complete behavioural specification of a successful `setElement`: the
coordinate was in bounds, the dimensions are unchanged, the three structural
invariants are preserved, and the stored values change exactly at the written
coordinate. -/
theorem setElement_spec {m : SparseMatrix} {r c v : Int} {m2 : SparseMatrix}
    (h : setElement m r c v = .ok m2) :
    (0 ≤ r ∧ r < m.rows ∧ 0 ≤ c ∧ c < m.cols) ∧
    m2.rows = m.rows ∧ m2.cols = m.cols ∧
    (InBounds m → InBounds m2) ∧
    (NodupKeys m.elements → NodupKeys m2.elements) ∧
    (Sparsity m → Sparsity m2) ∧
    (NodupKeys m.elements → ∀ i j, val m2 i j = if i = r ∧ j = c then v else val m i j) := by
  unfold setElement at h
  by_cases hb : r < 0 ∨ r ≥ m.rows ∨ c < 0 ∨ c ≥ m.cols
  · rw [if_pos hb] at h; exact absurd h (by simp)
  rw [if_neg hb] at h
  push_neg at hb
  obtain ⟨hb1, hb2, hb3, hb4⟩ := hb
  refine ⟨⟨hb1, hb2, hb3, hb4⟩, ?_⟩
  by_cases hv : v = 0
  · rw [if_pos hv] at h
    by_cases hs : (lookupKey m.elements (r, c)).isSome = true
    · rw [if_pos hs] at h
      simp only [Except.ok.injEq] at h
      subst h
      refine ⟨rfl, rfl, ?_, ?_, ?_, ?_⟩
      · intro hIB e he
        exact hIB e (mem_eraseKey he)
      · intro hnd
        exact nodup_eraseKey hnd
      · rintro ⟨hz, hc⟩
        refine ⟨fun e he => hz e (mem_eraseKey he), ?_⟩
        have hlen := eraseKey_length (l := m.elements) (k := (r, c)) hs
        simp only
        omega
      · intro hnd i j
        by_cases hij : i = r ∧ j = c
        · obtain ⟨rfl, rfl⟩ := hij
          simp [val, lookupKey_eraseKey_self hnd, hv]
        · have hne : (i, j) ≠ (r, c) := by
            simp only [Ne, Prod.mk.injEq]; exact hij
          simp [val, lookupKey_eraseKey_ne hne, hij]
    · rw [if_neg hs] at h
      simp only [Except.ok.injEq] at h
      subst h
      refine ⟨rfl, rfl, fun hIB => hIB, fun hnd => hnd, fun hsp => hsp, ?_⟩
      intro hnd i j
      by_cases hij : i = r ∧ j = c
      · obtain ⟨rfl, rfl⟩ := hij
        simp only [Option.isSome_iff_ne_none, not_not] at hs
        simp [val, hs, hv]
      · simp [hij]
  · rw [if_neg hv] at h
    by_cases hs : (lookupKey m.elements (r, c)).isSome = true
    · rw [if_pos hs] at h
      simp only [Except.ok.injEq] at h
      subst h
      refine ⟨rfl, rfl, ?_, ?_, ?_, ?_⟩
      · intro hIB e he
        rcases mem_updateKey he with h2 | h2
        · exact hIB e h2
        · subst h2
          exact ⟨hb1, hb2, hb3, hb4⟩
      · intro hnd
        simp only [NodupKeys] at hnd ⊢
        rw [keysOf_updateKey]
        exact hnd
      · rintro ⟨hz, hc⟩
        refine ⟨?_, ?_⟩
        · intro e he
          rcases mem_updateKey he with h2 | h2
          · exact hz e h2
          · subst h2; exact hv
        · simp only [updateKey_length]
          exact hc
      · intro hnd i j
        by_cases hij : i = r ∧ j = c
        · obtain ⟨rfl, rfl⟩ := hij
          simp [val, lookupKey_updateKey_self hs]
        · have hne : (i, j) ≠ (r, c) := by
            simp only [Ne, Prod.mk.injEq]; exact hij
          simp [val, lookupKey_updateKey_ne hne, hij]
    · rw [if_neg hs] at h
      simp only [Except.ok.injEq] at h
      subst h
      simp only [Option.isSome_iff_ne_none, not_not] at hs
      refine ⟨rfl, rfl, ?_, ?_, ?_, ?_⟩
      · intro hIB e he
        simp only [List.mem_append, List.mem_singleton] at he
        rcases he with h2 | h2
        · exact hIB e h2
        · subst h2
          exact ⟨hb1, hb2, hb3, hb4⟩
      · intro hnd
        exact nodup_append_key hnd hs
      · rintro ⟨hz, hc⟩
        refine ⟨?_, ?_⟩
        · intro e he
          simp only [List.mem_append, List.mem_singleton] at he
          rcases he with h2 | h2
          · exact hz e h2
          · subst h2; exact hv
        · simp only [List.length_append, List.length_singleton]
          push_cast
          omega
      · intro hnd i j
        by_cases hij : i = r ∧ j = c
        · obtain ⟨rfl, rfl⟩ := hij
          rw [if_pos ⟨rfl, rfl⟩]
          simp only [val]
          rw [lookupKey_append_right hs]
          simp [lookupKey]
        · have hne : (i, j) ≠ (r, c) := by
            simp only [Ne, Prod.mk.injEq]; exact hij
          rw [if_neg hij]
          simp only [val]
          cases hcase : lookupKey m.elements (i, j) with
          | some w => simp [lookupKey_append_left hcase, hcase]
          | none =>
            rw [lookupKey_append_right hcase]
            simp [lookupKey, Ne.symm hne, hcase]

/-! ## Fold lemmas for the two loops of `add` and `subtract` -/

/-- Sum of the values stored under one key (collapses to the unique stored
value when the keys are duplicate-free). -/
def sumKey (key : Int × Int) : List Entry → Int
  | [] => 0
  | (k, v) :: rest => (if k = key then v else 0) + sumKey key rest

theorem sumKey_eq_lookup {l : List Entry} (h : NodupKeys l) (key : Int × Int) :
    sumKey key l = (lookupKey l key).getD 0 := by
  induction l with
  | nil => rfl
  | cons f rest ih =>
    obtain ⟨k0, v0⟩ := f
    simp only [NodupKeys, keysOf, List.map_cons, List.nodup_cons] at h
    by_cases hk : k0 = key
    · subst hk
      have hnone : lookupKey rest k0 = none := lookupKey_eq_none.2 h.1
      have hih := ih h.2
      rw [hnone] at hih
      simp only [Option.getD_none] at hih
      simp [sumKey, lookupKey, hih]
    · simp [sumKey, lookupKey, hk, ih h.2]

theorem copyEntries_ok {al : List Entry} {res : SparseMatrix}
    (hin : ∀ e ∈ al, 0 ≤ e.1.1 ∧ e.1.1 < res.rows ∧ 0 ≤ e.1.2 ∧ e.1.2 < res.cols)
    (hnd : NodupKeys res.elements) (hndal : NodupKeys al) :
    ∃ res2, copyEntries res al = .ok res2 ∧ res2.rows = res.rows ∧ res2.cols = res.cols ∧
      NodupKeys res2.elements ∧ (InBounds res → InBounds res2) ∧
      ∀ i j, val res2 i j = (lookupKey al (i, j)).getD (val res i j) := by
  induction al generalizing res with
  | nil =>
    exact ⟨res, rfl, rfl, rfl, hnd, fun hin2 => hin2, fun i j => rfl⟩
  | cons f rest ih =>
    obtain ⟨⟨r, c⟩, v⟩ := f
    obtain ⟨h1, h2, h3, h4⟩ := hin _ (List.mem_cons_self _ _)
    obtain ⟨mm, hset⟩ := setElement_ok_ex v h1 h2 h3 h4
    obtain ⟨-, hrows, hcols, hIB, hND, -, hval⟩ := setElement_spec hset
    have hndrest : NodupKeys rest := by
      simp only [NodupKeys, keysOf, List.map_cons, List.nodup_cons] at hndal
      exact hndal.2
    have hkey : (r, c) ∉ keysOf rest := by
      simp only [NodupKeys, keysOf, List.map_cons, List.nodup_cons] at hndal
      exact hndal.1
    obtain ⟨res2, hrun, hrows2, hcols2, hnd2, hIB2, hval2⟩ :=
      @ih mm
        (fun e he => by
          have := hin e (List.mem_cons_of_mem _ he)
          rw [hrows, hcols]
          exact this)
        (hND hnd) hndrest
    refine ⟨res2, ?_, by rw [hrows2, hrows], by rw [hcols2, hcols], hnd2,
      fun hin2 => hIB2 (hIB hin2), ?_⟩
    · simp only [copyEntries, hset]
      exact hrun
    · intro i j
      rw [hval2 i j]
      by_cases hij : i = r ∧ j = c
      · obtain ⟨rfl, rfl⟩ := hij
        have hrest : lookupKey rest (i, j) = none := lookupKey_eq_none.2 hkey
        rw [hrest]
        simp only [Option.getD_none]
        rw [hval hnd i j, if_pos ⟨rfl, rfl⟩]
        simp [lookupKey]
      · have hne : (r, c) ≠ (i, j) := by
          simp only [Ne, Prod.mk.injEq]
          intro ⟨hh1, hh2⟩; exact hij ⟨hh1.symm, hh2.symm⟩
        simp only [lookupKey, if_neg hne]
        cases hcase : lookupKey rest (i, j) with
        | some w => simp
        | none =>
          simp only [Option.getD_none]
          rw [hval hnd i j, if_neg hij]

theorem addEntries_ok {bl : List Entry} {res : SparseMatrix}
    (hin : ∀ e ∈ bl, 0 ≤ e.1.1 ∧ e.1.1 < res.rows ∧ 0 ≤ e.1.2 ∧ e.1.2 < res.cols)
    (hnd : NodupKeys res.elements) :
    ∃ res2, addEntries res bl = .ok res2 ∧ res2.rows = res.rows ∧ res2.cols = res.cols ∧
      NodupKeys res2.elements ∧ (InBounds res → InBounds res2) ∧
      ∀ i j, val res2 i j = val res i j + sumKey (i, j) bl := by
  induction bl generalizing res with
  | nil =>
    exact ⟨res, rfl, rfl, rfl, hnd, fun hin2 => hin2, fun i j => by simp [sumKey]⟩
  | cons f rest ih =>
    obtain ⟨⟨r, c⟩, v⟩ := f
    obtain ⟨h1, h2, h3, h4⟩ := hin _ (List.mem_cons_self _ _)
    have hget := getElement_ok h1 h2 h3 h4
    obtain ⟨mm, hset⟩ := setElement_ok_ex (val res r c + v) h1 h2 h3 h4
    obtain ⟨-, hrows, hcols, hIB, hND, -, hval⟩ := setElement_spec hset
    obtain ⟨res2, hrun, hrows2, hcols2, hnd2, hIB2, hval2⟩ :=
      @ih mm
        (fun e he => by
          have := hin e (List.mem_cons_of_mem _ he)
          rw [hrows, hcols]
          exact this)
        (hND hnd)
    refine ⟨res2, ?_, by rw [hrows2, hrows], by rw [hcols2, hcols], hnd2,
      fun hin2 => hIB2 (hIB hin2), ?_⟩
    · simp only [addEntries, hget, hset]
      exact hrun
    · intro i j
      rw [hval2 i j, hval hnd i j]
      by_cases hij : i = r ∧ j = c
      · obtain ⟨rfl, rfl⟩ := hij
        rw [if_pos ⟨rfl, rfl⟩]
        simp [sumKey]
        ring
      · have hne : (r, c) ≠ (i, j) := by
          simp only [Ne, Prod.mk.injEq]
          intro ⟨hh1, hh2⟩; exact hij ⟨hh1.symm, hh2.symm⟩
        rw [if_neg hij]
        simp only [sumKey, if_neg hne]
        ring

theorem subEntries_ok {bl : List Entry} {res : SparseMatrix}
    (hin : ∀ e ∈ bl, 0 ≤ e.1.1 ∧ e.1.1 < res.rows ∧ 0 ≤ e.1.2 ∧ e.1.2 < res.cols)
    (hnd : NodupKeys res.elements) :
    ∃ res2, subEntries res bl = .ok res2 ∧ res2.rows = res.rows ∧ res2.cols = res.cols ∧
      NodupKeys res2.elements ∧ (InBounds res → InBounds res2) ∧
      ∀ i j, val res2 i j = val res i j - sumKey (i, j) bl := by
  induction bl generalizing res with
  | nil =>
    exact ⟨res, rfl, rfl, rfl, hnd, fun hin2 => hin2, fun i j => by simp [sumKey]⟩
  | cons f rest ih =>
    obtain ⟨⟨r, c⟩, v⟩ := f
    obtain ⟨h1, h2, h3, h4⟩ := hin _ (List.mem_cons_self _ _)
    have hget := getElement_ok h1 h2 h3 h4
    obtain ⟨mm, hset⟩ := setElement_ok_ex (val res r c - v) h1 h2 h3 h4
    obtain ⟨-, hrows, hcols, hIB, hND, -, hval⟩ := setElement_spec hset
    obtain ⟨res2, hrun, hrows2, hcols2, hnd2, hIB2, hval2⟩ :=
      @ih mm
        (fun e he => by
          have := hin e (List.mem_cons_of_mem _ he)
          rw [hrows, hcols]
          exact this)
        (hND hnd)
    refine ⟨res2, ?_, by rw [hrows2, hrows], by rw [hcols2, hcols], hnd2,
      fun hin2 => hIB2 (hIB hin2), ?_⟩
    · simp only [subEntries, hget, hset]
      exact hrun
    · intro i j
      rw [hval2 i j, hval hnd i j]
      by_cases hij : i = r ∧ j = c
      · obtain ⟨rfl, rfl⟩ := hij
        rw [if_pos ⟨rfl, rfl⟩]
        simp [sumKey]
        ring
      · have hne : (r, c) ≠ (i, j) := by
          simp only [Ne, Prod.mk.injEq]
          intro ⟨hh1, hh2⟩; exact hij ⟨hh1.symm, hh2.symm⟩
        rw [if_neg hij]
        simp only [sumKey, if_neg hne]
        ring

/-! ## Fold lemmas for the two loops of `multiply` -/

/-- Contribution of the outer loop of `multiply` to the result coordinate
`(i, j)`: one summand per entry of the left operand whose row is `i`. -/
def sOuter (bl : List Entry) (j i : Int) : List Entry → Int
  | [] => 0
  | ((rA, cA), vA) :: rest =>
    (if i = rA then vA * sumKey (cA, j) bl else 0) + sOuter bl j i rest

theorem multInner_ok {rowA colA valA : Int} {res : SparseMatrix} {bl : List Entry}
    (hr1 : 0 ≤ rowA) (hr2 : rowA < res.rows)
    (hbl : ∀ e ∈ bl, 0 ≤ e.1.2 ∧ e.1.2 < res.cols)
    (hnd : NodupKeys res.elements) :
    ∃ res2, multInner rowA colA valA res bl = .ok res2 ∧ res2.rows = res.rows ∧
      res2.cols = res.cols ∧ NodupKeys res2.elements ∧
      ∀ i j, val res2 i j = val res i j +
        (if i = rowA then valA * sumKey (colA, j) bl else 0) := by
  induction bl generalizing res with
  | nil =>
    refine ⟨res, rfl, rfl, rfl, hnd, fun i j => ?_⟩
    simp [sumKey]
  | cons f rest ih =>
    obtain ⟨⟨rB, cB⟩, vB⟩ := f
    obtain ⟨hc1, hc2⟩ := hbl _ (List.mem_cons_self _ _)
    by_cases hcol : colA = rB
    · subst hcol
      have key : ∀ j : Int, sumKey (colA, j) (((colA, cB), vB) :: rest) =
          (if j = cB then vB else 0) + sumKey (colA, j) rest := by
        intro j
        by_cases hj : j = cB
        · subst hj; simp [sumKey]
        · simp [sumKey, Prod.mk.injEq, Ne.symm hj, hj]
      by_cases hp : valA * vB ≠ 0
      · have hget := getElement_ok hr1 hr2 hc1 hc2
        obtain ⟨mm, hset⟩ := setElement_ok_ex (val res rowA cB + valA * vB) hr1 hr2 hc1 hc2
        obtain ⟨-, hrows, hcols, -, hND, -, hval⟩ := setElement_spec hset
        obtain ⟨res2, hrun, hrows2, hcols2, hnd2, hval2⟩ :=
          @ih mm (by rw [hrows]; exact hr2)
            (fun e he => by
              rw [hcols]
              exact hbl e (List.mem_cons_of_mem _ he))
            (hND hnd)
        refine ⟨res2, ?_, by rw [hrows2, hrows], by rw [hcols2, hcols], hnd2, ?_⟩
        · simp only [multInner, if_pos rfl, if_pos hp, hget, hset]
          exact hrun
        · intro i j
          rw [hval2 i j, hval hnd i j, key j]
          by_cases hi : i = rowA
          · subst hi
            by_cases hj : j = cB
            · subst hj
              rw [if_pos ⟨rfl, rfl⟩, if_pos rfl, if_pos rfl, if_pos rfl]
              ring
            · rw [if_neg (fun hh => hj hh.2), if_pos rfl, if_pos rfl, if_neg hj]
              ring
          · rw [if_neg (fun hh => hi hh.1), if_neg hi, if_neg hi]
      · push_neg at hp
        obtain ⟨res2, hrun, hrows2, hcols2, hnd2, hval2⟩ :=
          @ih res hr2 (fun e he => hbl e (List.mem_cons_of_mem _ he)) hnd
        refine ⟨res2, ?_, hrows2, hcols2, hnd2, ?_⟩
        · simp only [multInner, if_pos rfl, hp, ne_eq, not_true_eq_false, if_false]
          exact hrun
        · intro i j
          rw [hval2 i j, key j]
          by_cases hi : i = rowA
          · subst hi
            rw [if_pos rfl, if_pos rfl]
            by_cases hj : j = cB
            · rw [if_pos hj, mul_add, hp]
              ring
            · rw [if_neg hj]
              ring
          · rw [if_neg hi, if_neg hi]
    · have key3 : ∀ j : Int, sumKey (colA, j) (((rB, cB), vB) :: rest) =
          sumKey (colA, j) rest := by
        intro j
        have hne : ((rB, cB) : Int × Int) ≠ (colA, j) := by
          simp only [Ne, Prod.mk.injEq]
          rintro ⟨hh, -⟩
          exact hcol hh.symm
        simp [sumKey, hne]
      obtain ⟨res2, hrun, hrows2, hcols2, hnd2, hval2⟩ :=
        @ih res hr2 (fun e he => hbl e (List.mem_cons_of_mem _ he)) hnd
      refine ⟨res2, ?_, hrows2, hcols2, hnd2, ?_⟩
      · simp only [multInner, if_neg hcol]
        exact hrun
      · intro i j
        rw [hval2 i j, key3 j]

theorem multOuter_ok {bl al : List Entry} {res : SparseMatrix}
    (hal : ∀ e ∈ al, 0 ≤ e.1.1 ∧ e.1.1 < res.rows)
    (hbl : ∀ e ∈ bl, 0 ≤ e.1.2 ∧ e.1.2 < res.cols)
    (hnd : NodupKeys res.elements) :
    ∃ res2, multOuter bl res al = .ok res2 ∧ res2.rows = res.rows ∧ res2.cols = res.cols ∧
      NodupKeys res2.elements ∧
      ∀ i j, val res2 i j = val res i j + sOuter bl j i al := by
  induction al generalizing res with
  | nil =>
    refine ⟨res, rfl, rfl, rfl, hnd, fun i j => ?_⟩
    simp [sOuter]
  | cons f rest ih =>
    obtain ⟨⟨rA, cA⟩, vA⟩ := f
    obtain ⟨h1, h2⟩ := hal _ (List.mem_cons_self _ _)
    obtain ⟨mm, hrun1, hrows1, hcols1, hnd1, hval1⟩ :=
      @multInner_ok rA cA vA res bl h1 h2 hbl hnd
    obtain ⟨res2, hrun2, hrows2, hcols2, hnd2, hval2⟩ :=
      @ih mm
        (fun e he => by
          rw [hrows1]
          exact hal e (List.mem_cons_of_mem _ he))
        (fun e he => by
          rw [hcols1]
          exact hbl e he)
        hnd1
    refine ⟨res2, ?_, by rw [hrows2, hrows1], by rw [hcols2, hcols1], hnd2, ?_⟩
    · simp only [multOuter, hrun1]
      exact hrun2
    · intro i j
      rw [hval2 i j, hval1 i j]
      simp only [sOuter]
      ring

/-! ## A recursively defined finite sum, and the support-sum lemma -/

/-- Finite sum of `g 0 + g 1 + ... + g (n-1)`. -/
def sumUpTo (g : Nat → Int) : Nat → Int
  | 0 => 0
  | n + 1 => sumUpTo g n + g n

theorem sumUpTo_congr {g1 g2 : Nat → Int} {n : Nat} (h : ∀ k, k < n → g1 k = g2 k) :
    sumUpTo g1 n = sumUpTo g2 n := by
  induction n with
  | zero => rfl
  | succ n ih =>
    simp only [sumUpTo]
    rw [ih (fun k hk => h k (Nat.lt_succ_of_lt hk)), h n (Nat.lt_succ_self n)]

theorem sumUpTo_zero_fn {n : Nat} : sumUpTo (fun _ => (0 : Int)) n = 0 := by
  induction n with
  | zero => rfl
  | succ n ih => simp [sumUpTo, ih]

theorem sumUpTo_split {g : Nat → Int} {n c : Nat} (hc : c < n) :
    sumUpTo g n = g c + sumUpTo (fun k => if k = c then 0 else g k) n := by
  induction n with
  | zero => omega
  | succ n ih =>
    by_cases hcn : c = n
    · subst hcn
      simp only [sumUpTo, if_pos rfl]
      have : sumUpTo (fun k => if k = c then 0 else g k) c = sumUpTo g c :=
        sumUpTo_congr (fun k hk => by rw [if_neg (by omega)])
      rw [this]
      simp only [if_pos rfl, reduceIte, add_zero]
      ring
    · have hc2 : c < n := by omega
      simp only [sumUpTo]
      rw [ih hc2, if_neg (by omega)]
      ring

/-- The outer-loop contribution, summed over the entries of the left operand
with duplicate-free keys and in-range columns, is the column-indexed sum of
the stored values times the inner sums. -/
theorem sOuter_eq_sumUpTo {bl al : List Entry} {j i : Int} {n : Nat}
    (hnd : NodupKeys al)
    (hcol : ∀ e ∈ al, 0 ≤ e.1.2 ∧ e.1.2 < (n : Int)) :
    sOuter bl j i al =
      sumUpTo (fun k => (lookupKey al (i, (k : Int))).getD 0 * sumKey (((k : Int)), j) bl) n := by
  induction al with
  | nil =>
    rw [sOuter]
    rw [@sumUpTo_congr _ (fun _ => 0) _ (fun k hk => by simp [lookupKey])]
    rw [sumUpTo_zero_fn]
  | cons f rest ih =>
    obtain ⟨⟨rA, cA⟩, vA⟩ := f
    simp only [NodupKeys, keysOf, List.map_cons, List.nodup_cons] at hnd
    have hndrest : NodupKeys rest := hnd.2
    have hkey : (rA, cA) ∉ keysOf rest := hnd.1
    obtain ⟨hcA1x, hcA2x⟩ := hcol _ (List.mem_cons_self _ _)
    have hcA1 : 0 ≤ cA := hcA1x
    have hcA2 : cA < (n : Int) := hcA2x
    have hcolrest : ∀ e ∈ rest, 0 ≤ e.1.2 ∧ e.1.2 < (n : Int) :=
      fun e he => hcol e (List.mem_cons_of_mem _ he)
    have hih := ih hndrest hcolrest
    by_cases hi : i = rA
    · subst hi
      set c0 : Nat := cA.toNat with hc0
      have hcast : (c0 : Int) = cA := Int.toNat_of_nonneg hcA1
      have hc0n : c0 < n := by omega
      rw [sumUpTo_split (g := fun k =>
        (lookupKey (((i, cA), vA) :: rest) (i, (k : Int))).getD 0 * sumKey (((k : Int)), j) bl) hc0n]
      have hterm : (lookupKey (((i, cA), vA) :: rest) (i, (c0 : Int))).getD 0 *
          sumKey (((c0 : Int)), j) bl = vA * sumKey ((cA), j) bl := by
        rw [hcast]
        simp [lookupKey]
      have hrest0 : lookupKey rest (i, cA) = none := lookupKey_eq_none.2 hkey
      have hcongr : sumUpTo (fun k => if k = c0 then 0 else
          (lookupKey (((i, cA), vA) :: rest) (i, (k : Int))).getD 0 * sumKey (((k : Int)), j) bl) n =
          sumUpTo (fun k => (lookupKey rest (i, (k : Int))).getD 0 * sumKey (((k : Int)), j) bl) n := by
        apply sumUpTo_congr
        intro k hk
        by_cases hkc : k = c0
        · subst hkc
          rw [if_pos rfl, hcast, hrest0]
          simp
        · rw [if_neg hkc]
          have hne : ((i, cA) : Int × Int) ≠ (i, (k : Int)) := by
            simp only [Ne, Prod.mk.injEq]
            rintro ⟨-, hh⟩
            omega
          simp [lookupKey, hne]
      rw [hterm, hcongr, ← hih]
      simp [sOuter]
    · have hcongr : sumUpTo (fun k =>
          (lookupKey (((rA, cA), vA) :: rest) (i, (k : Int))).getD 0 * sumKey (((k : Int)), j) bl) n =
          sumUpTo (fun k => (lookupKey rest (i, (k : Int))).getD 0 * sumKey (((k : Int)), j) bl) n := by
        apply sumUpTo_congr
        intro k hk
        have hne : ((rA, cA) : Int × Int) ≠ (i, (k : Int)) := by
          simp only [Ne, Prod.mk.injEq]
          rintro ⟨hh, -⟩
          exact hi hh.symm
        simp [lookupKey, hne]
      rw [hcongr, ← hih]
      simp only [sOuter, if_neg hi, zero_add]

/-! ## Operation-level specifications -/

theorem add_ok {a b : SparseMatrix}
    (h1 : a.rows = b.rows) (h2 : a.cols = b.cols)
    (hina : InBounds a) (hinb : InBounds b)
    (hnda : NodupKeys a.elements) (hndb : NodupKeys b.elements) :
    ∃ s, add a b = .ok s ∧ s.rows = a.rows ∧ s.cols = a.cols ∧
      NodupKeys s.elements ∧ InBounds s ∧
      ∀ i j, val s i j = val a i j + val b i j := by
  obtain ⟨r1, hrun1, hrows1, hcols1, hnd1, hIB1, hval1⟩ :=
    @copyEntries_ok a.elements (newMatrix a.rows a.cols)
      (fun e he => hina e he) (by simp [NodupKeys, keysOf, newMatrix]) hnda
  have hval1A : ∀ i j, val r1 i j = val a i j := by
    intro i j
    have := hval1 i j
    simpa [val, newMatrix, lookupKey] using this
  obtain ⟨s, hrun2, hrows2, hcols2, hnd2, hIB2, hval2⟩ :=
    @addEntries_ok b.elements r1
      (fun e he => by
        rw [hrows1, hcols1, h1, h2]
        exact hinb e he)
      hnd1
  refine ⟨s, ?_, by rw [hrows2, hrows1]; rfl, by rw [hcols2, hcols1]; rfl, hnd2, ?_, ?_⟩
  · unfold add
    rw [if_neg (by push_neg; exact ⟨h1, h2⟩)]
    simp only [hrun1]
    exact hrun2
  · exact hIB2 (hIB1 (fun e he => absurd he (List.not_mem_nil e)))
  · intro i j
    rw [hval2 i j, hval1A i j, sumKey_eq_lookup hndb]
    rfl

theorem subtract_ok {a b : SparseMatrix}
    (h1 : a.rows = b.rows) (h2 : a.cols = b.cols)
    (hina : InBounds a) (hinb : InBounds b)
    (hnda : NodupKeys a.elements) (hndb : NodupKeys b.elements) :
    ∃ s, subtract a b = .ok s ∧ s.rows = a.rows ∧ s.cols = a.cols ∧
      NodupKeys s.elements ∧ InBounds s ∧
      ∀ i j, val s i j = val a i j - val b i j := by
  obtain ⟨r1, hrun1, hrows1, hcols1, hnd1, hIB1, hval1⟩ :=
    @copyEntries_ok a.elements (newMatrix a.rows a.cols)
      (fun e he => hina e he) (by simp [NodupKeys, keysOf, newMatrix]) hnda
  have hval1A : ∀ i j, val r1 i j = val a i j := by
    intro i j
    have := hval1 i j
    simpa [val, newMatrix, lookupKey] using this
  obtain ⟨s, hrun2, hrows2, hcols2, hnd2, hIB2, hval2⟩ :=
    @subEntries_ok b.elements r1
      (fun e he => by
        rw [hrows1, hcols1, h1, h2]
        exact hinb e he)
      hnd1
  refine ⟨s, ?_, by rw [hrows2, hrows1]; rfl, by rw [hcols2, hcols1]; rfl, hnd2, ?_, ?_⟩
  · unfold subtract
    rw [if_neg (by push_neg; exact ⟨h1, h2⟩)]
    simp only [hrun1]
    exact hrun2
  · exact hIB2 (hIB1 (fun e he => absurd he (List.not_mem_nil e)))
  · intro i j
    rw [hval2 i j, hval1A i j, sumKey_eq_lookup hndb]
    rfl

theorem multiply_ok {a b : SparseMatrix} (hc : a.cols = b.rows)
    (hina : InBounds a) (hinb : InBounds b)
    (hnda : NodupKeys a.elements) (hndb : NodupKeys b.elements) :
    ∃ p, multiply a b = .ok p ∧ p.rows = a.rows ∧ p.cols = b.cols ∧ NodupKeys p.elements ∧
      ∀ i j, val p i j =
        sumUpTo (fun k => val a i (k : Int) * val b ((k : Int)) j) a.cols.toNat := by
  obtain ⟨p, hrun, hrows, hcols, hnd, hval⟩ :=
    @multOuter_ok b.elements a.elements (newMatrix a.rows b.cols)
      (fun e he => ⟨(hina e he).1, (hina e he).2.1⟩)
      (fun e he => ⟨(hinb e he).2.2.1, (hinb e he).2.2.2⟩)
      (by simp [NodupKeys, keysOf, newMatrix])
  refine ⟨p, ?_, by rw [hrows]; rfl, by rw [hcols]; rfl, hnd, ?_⟩
  · unfold multiply
    rw [if_neg (by omega)]
    exact hrun
  · intro i j
    rw [hval i j]
    have h0 : val (newMatrix a.rows b.cols) i j = 0 := rfl
    rw [h0, zero_add]
    rw [sOuter_eq_sumUpTo (n := a.cols.toNat) hnda
      (fun e he => by
        have hh := hina e he
        exact ⟨hh.2.2.1, by omega⟩)]
    apply sumUpTo_congr
    intro k hk
    rw [sumKey_eq_lookup hndb]
    rfl

/-! ## Sparsity preservation through every loop -/

theorem commitEntries_sparsity {es : List (Int × Int × Int)} {m m2 : SparseMatrix}
    (h : commitEntries m es = .ok m2) (hs : Sparsity m) : Sparsity m2 := by
  induction es generalizing m with
  | nil =>
    simp only [commitEntries, Except.ok.injEq] at h
    subst h; exact hs
  | cons e rest ih =>
    obtain ⟨r, c, v⟩ := e
    simp only [commitEntries] at h
    by_cases hv : v ≠ 0
    · rw [if_pos hv] at h
      cases hset : setElement m r c v with
      | ok mm =>
        rw [hset] at h
        exact ih h ((setElement_spec hset).2.2.2.2.2.1 hs)
      | error err => rw [hset] at h; simp at h
    · rw [if_neg hv] at h
      exact ih h hs

theorem copyEntries_sparsity {al : List Entry} {m m2 : SparseMatrix}
    (h : copyEntries m al = .ok m2) (hs : Sparsity m) : Sparsity m2 := by
  induction al generalizing m with
  | nil =>
    simp only [copyEntries, Except.ok.injEq] at h
    subst h; exact hs
  | cons f rest ih =>
    obtain ⟨⟨r, c⟩, v⟩ := f
    simp only [copyEntries] at h
    cases hset : setElement m r c v with
    | ok mm =>
      rw [hset] at h
      exact ih h ((setElement_spec hset).2.2.2.2.2.1 hs)
    | error err => rw [hset] at h; simp at h

theorem addEntries_sparsity {bl : List Entry} {m m2 : SparseMatrix}
    (h : addEntries m bl = .ok m2) (hs : Sparsity m) : Sparsity m2 := by
  induction bl generalizing m with
  | nil =>
    simp only [addEntries, Except.ok.injEq] at h
    subst h; exact hs
  | cons f rest ih =>
    obtain ⟨⟨r, c⟩, v⟩ := f
    simp only [addEntries] at h
    cases hget : getElement m r c with
    | error err => rw [hget] at h; simp at h
    | ok cur =>
      rw [hget] at h
      have h2 : (match setElement m r c (cur + v) with
          | Except.ok res2 => addEntries res2 rest
          | Except.error e => Except.error e) = Except.ok m2 := h
      cases hset : setElement m r c (cur + v) with
      | ok mm =>
        rw [hset] at h2
        exact ih h2 ((setElement_spec hset).2.2.2.2.2.1 hs)
      | error err => rw [hset] at h2; simp at h2

theorem subEntries_sparsity {bl : List Entry} {m m2 : SparseMatrix}
    (h : subEntries m bl = .ok m2) (hs : Sparsity m) : Sparsity m2 := by
  induction bl generalizing m with
  | nil =>
    simp only [subEntries, Except.ok.injEq] at h
    subst h; exact hs
  | cons f rest ih =>
    obtain ⟨⟨r, c⟩, v⟩ := f
    simp only [subEntries] at h
    cases hget : getElement m r c with
    | error err => rw [hget] at h; simp at h
    | ok cur =>
      rw [hget] at h
      have h2 : (match setElement m r c (cur - v) with
          | Except.ok res2 => subEntries res2 rest
          | Except.error e => Except.error e) = Except.ok m2 := h
      cases hset : setElement m r c (cur - v) with
      | ok mm =>
        rw [hset] at h2
        exact ih h2 ((setElement_spec hset).2.2.2.2.2.1 hs)
      | error err => rw [hset] at h2; simp at h2

theorem multInner_sparsity {bl : List Entry} {rowA colA valA : Int} {m m2 : SparseMatrix}
    (h : multInner rowA colA valA m bl = .ok m2) (hs : Sparsity m) : Sparsity m2 := by
  induction bl generalizing m with
  | nil =>
    simp only [multInner, Except.ok.injEq] at h
    subst h; exact hs
  | cons f rest ih =>
    obtain ⟨⟨rB, cB⟩, vB⟩ := f
    simp only [multInner] at h
    by_cases hcol : colA = rB
    · rw [if_pos hcol] at h
      by_cases hp : valA * vB ≠ 0
      · rw [if_pos hp] at h
        cases hget : getElement m rowA cB with
        | error err => rw [hget] at h; simp at h
        | ok cur =>
          rw [hget] at h
          have h2 : (match setElement m rowA cB (cur + valA * vB) with
              | Except.ok res2 => multInner rowA colA valA res2 rest
              | Except.error e => Except.error e) = Except.ok m2 := h
          cases hset : setElement m rowA cB (cur + valA * vB) with
          | ok mm =>
            rw [hset] at h2
            exact ih h2 ((setElement_spec hset).2.2.2.2.2.1 hs)
          | error err => rw [hset] at h2; simp at h2
      · rw [if_neg hp] at h
        exact ih h hs
    · rw [if_neg hcol] at h
      exact ih h hs

theorem multOuter_sparsity {bl al : List Entry} {m m2 : SparseMatrix}
    (h : multOuter bl m al = .ok m2) (hs : Sparsity m) : Sparsity m2 := by
  induction al generalizing m with
  | nil =>
    simp only [multOuter, Except.ok.injEq] at h
    subst h; exact hs
  | cons f rest ih =>
    obtain ⟨⟨rA, cA⟩, vA⟩ := f
    simp only [multOuter] at h
    cases hinner : multInner rA cA vA m bl with
    | ok mm =>
      rw [hinner] at h
      exact ih h (multInner_sparsity hinner hs)
    | error err => rw [hinner] at h; simp at h

theorem sparsity_newMatrix (r c : Int) : Sparsity (newMatrix r c) := by
  refine ⟨fun e he => absurd he (List.not_mem_nil e), rfl⟩

/-! ## Structure of `loadFromFile` -/

theorem loadInner_eq_commit {data : List Char} {r c : Int} {es : List (Int × Int × Int)}
    (h1 : ¬ (validLinesOf data).length < 3)
    (h2 : isPre "rows=".data ((validLinesOf data).headD []) = true)
    (h3 : isPre "cols=".data (((validLinesOf data).drop 1).headD []) = true)
    (h4 : jsParseInt (((validLinesOf data).headD []).drop 5) = some r)
    (h5 : jsParseInt ((((validLinesOf data).drop 1).headD []).drop 5) = some c)
    (h6 : 0 < r) (h7 : 0 < c)
    (h8 : parseEntries ((validLinesOf data).drop 2) = some es) :
    loadInner data =
      (if maxRowOf es ≥ r ∨ maxColOf es ≥ c then
        commitEntries ⟨maxRowOf es + 1, maxColOf es + 1, [], 0⟩ es
      else commitEntries ⟨r, c, [], 0⟩ es) := by
  unfold loadInner
  rw [if_neg h1, if_neg (by rw [h2]; simp), if_neg (by rw [h3]; simp)]
  simp only [h4, h5, h8]
  rw [if_neg (by omega)]

theorem loadInner_ok_elim {data : List Char} {m : SparseMatrix}
    (h : loadInner data = .ok m) :
    ∃ r c es,
      ¬ (validLinesOf data).length < 3 ∧
      isPre "rows=".data ((validLinesOf data).headD []) = true ∧
      isPre "cols=".data (((validLinesOf data).drop 1).headD []) = true ∧
      jsParseInt (((validLinesOf data).headD []).drop 5) = some r ∧
      jsParseInt ((((validLinesOf data).drop 1).headD []).drop 5) = some c ∧
      0 < r ∧ 0 < c ∧
      parseEntries ((validLinesOf data).drop 2) = some es ∧
      ((maxRowOf es ≥ r ∨ maxColOf es ≥ c) →
        commitEntries ⟨maxRowOf es + 1, maxColOf es + 1, [], 0⟩ es = .ok m) ∧
      (¬ (maxRowOf es ≥ r ∨ maxColOf es ≥ c) →
        commitEntries ⟨r, c, [], 0⟩ es = .ok m) := by
  unfold loadInner at h
  split at h
  · exact absurd h (by simp)
  next h1 =>
    split at h
    · exact absurd h (by simp)
    next h2 =>
      split at h
      · exact absurd h (by simp)
      next h3 =>
        split at h
        next r c h4 h5 =>
          split at h
          · exact absurd h (by simp)
          next h6 =>
            split at h
            · exact absurd h (by simp)
            next es h8 =>
              push_neg at h6
              refine ⟨r, c, es, h1, by simpa using h2, by simpa using h3, h4, h5,
                by omega, by omega, h8, ?_, ?_⟩
              · intro hgrow
                rwa [if_pos hgrow] at h
              · intro hgrow
                rwa [if_neg hgrow] at h
        next h4 =>
          exact absurd h (by simp)

theorem commitEntries_spec {es : List (Int × Int × Int)} {m m2 : SparseMatrix}
    (h : commitEntries m es = .ok m2) :
    m2.rows = m.rows ∧ m2.cols = m.cols ∧
    (InBounds m → InBounds m2) ∧
    (NodupKeys m.elements → NodupKeys m2.elements) := by
  induction es generalizing m with
  | nil =>
    simp only [commitEntries, Except.ok.injEq] at h
    subst h
    exact ⟨rfl, rfl, fun x => x, fun x => x⟩
  | cons e rest ih =>
    obtain ⟨r, c, v⟩ := e
    simp only [commitEntries] at h
    by_cases hv : v ≠ 0
    · rw [if_pos hv] at h
      cases hset : setElement m r c v with
      | ok mm =>
        rw [hset] at h
        obtain ⟨-, hrows, hcols, hIB, hND, -, -⟩ := setElement_spec hset
        obtain ⟨hrows2, hcols2, hIB2, hND2⟩ := ih h
        exact ⟨by rw [hrows2, hrows], by rw [hcols2, hcols],
          fun hh => hIB2 (hIB hh), fun hh => hND2 (hND hh)⟩
      | error err => rw [hset] at h; simp at h
    · rw [if_neg hv] at h
      exact ih h

/-- If every non-zero entry is inside the matrix dimensions, the commit pass
succeeds. -/
theorem commitEntries_ok_of_good {es : List (Int × Int × Int)} {m : SparseMatrix}
    (hgood : ∀ e ∈ es, e.2.2 ≠ 0 → 0 ≤ e.1 ∧ e.1 < m.rows ∧ 0 ≤ e.2.1 ∧ e.2.1 < m.cols) :
    ∃ m2, commitEntries m es = .ok m2 := by
  induction es generalizing m with
  | nil => exact ⟨m, rfl⟩
  | cons e rest ih =>
    obtain ⟨r, c, v⟩ := e
    by_cases hv : v ≠ 0
    · obtain ⟨hb1, hb2, hb3, hb4⟩ := hgood _ (List.mem_cons_self _ _) hv
      obtain ⟨mm, hset⟩ := setElement_ok_ex v hb1 hb2 hb3 hb4
      obtain ⟨-, hrows, hcols, -, -, -, -⟩ := setElement_spec hset
      obtain ⟨m2, hrun⟩ := ih (m := mm)
        (fun e he hz => by
          rw [hrows, hcols]
          exact hgood e (List.mem_cons_of_mem _ he) hz)
      refine ⟨m2, ?_⟩
      simp only [commitEntries, if_pos hv, hset]
      exact hrun
    · obtain ⟨m2, hrun⟩ := ih (m := m) (fun e he hz => hgood e (List.mem_cons_of_mem _ he) hz)
      refine ⟨m2, ?_⟩
      simp only [commitEntries, if_neg hv]
      exact hrun

/-- If some non-zero entry lies outside the matrix dimensions, the commit pass
throws the out-of-bounds error of `setElement`. -/
theorem commitEntries_error_of_bad {es : List (Int × Int × Int)} {m : SparseMatrix}
    (hbad : ∃ e ∈ es, e.2.2 ≠ 0 ∧
      (e.1 < 0 ∨ e.1 ≥ m.rows ∨ e.2.1 < 0 ∨ e.2.1 ≥ m.cols)) :
    commitEntries m es = .error oobMsg := by
  induction es generalizing m with
  | nil => simp at hbad
  | cons e rest ih =>
    obtain ⟨r, c, v⟩ := e
    by_cases hv : v ≠ 0
    · by_cases hb : r < 0 ∨ r ≥ m.rows ∨ c < 0 ∨ c ≥ m.cols
      · have hset : setElement m r c v = .error oobMsg := (setElement_error_iff m r c v).2 hb
        simp only [commitEntries, if_pos hv, hset]
      · obtain ⟨hb1, hb2, hb3, hb4⟩ : 0 ≤ r ∧ r < m.rows ∧ 0 ≤ c ∧ c < m.cols := by omega
        obtain ⟨mm, hset⟩ := setElement_ok_ex v hb1 hb2 hb3 hb4
        obtain ⟨-, hrows, hcols, -, -, -, -⟩ := setElement_spec hset
        have hbadrest : ∃ e ∈ rest, e.2.2 ≠ 0 ∧
            (e.1 < 0 ∨ e.1 ≥ mm.rows ∨ e.2.1 < 0 ∨ e.2.1 ≥ mm.cols) := by
          obtain ⟨e, he, hz, ho⟩ := hbad
          rcases List.mem_cons.1 he with h1 | h1
          · subst h1
            simp only at hz ho
            exact absurd ho (by omega)
          · exact ⟨e, h1, hz, by rw [hrows, hcols]; exact ho⟩
        simp only [commitEntries, if_pos hv, hset]
        exact ih hbadrest
    · have hbadrest : ∃ e ∈ rest, e.2.2 ≠ 0 ∧
          (e.1 < 0 ∨ e.1 ≥ m.rows ∨ e.2.1 < 0 ∨ e.2.1 ≥ m.cols) := by
        obtain ⟨e, he, hz, ho⟩ := hbad
        rcases List.mem_cons.1 he with h1 | h1
        · subst h1
          simp only at hz
          exact absurd hz hv
        · exact ⟨e, h1, hz, ho⟩
      simp only [commitEntries, if_neg hv]
      exact ih hbadrest

/-- Commit pass on all-non-zero, in-bounds, duplicate-free entries whose keys
are fresh: the resulting element list is the old list extended by exactly the
given entries, in order. -/
theorem commitEntries_exact {es : List (Int × Int × Int)} {m : SparseMatrix}
    (hnz : ∀ e ∈ es, e.2.2 ≠ 0)
    (hin : ∀ e ∈ es, 0 ≤ e.1 ∧ e.1 < m.rows ∧ 0 ≤ e.2.1 ∧ e.2.1 < m.cols)
    (hnd : (es.map fun e => ((e.1, e.2.1) : Int × Int)).Nodup)
    (hfresh : ∀ e ∈ es, lookupKey m.elements (e.1, e.2.1) = none) :
    commitEntries m es = .ok ⟨m.rows, m.cols,
      m.elements ++ es.map (fun e => ((e.1, e.2.1), e.2.2)),
      m.elementCount + es.length⟩ := by
  induction es generalizing m with
  | nil => simp [commitEntries]
  | cons e rest ih =>
    obtain ⟨r, c, v⟩ := e
    have hv : v ≠ 0 := hnz _ (List.mem_cons_self _ _)
    obtain ⟨hb1x, hb2x, hb3x, hb4x⟩ := hin _ (List.mem_cons_self _ _)
    have hb1 : 0 ≤ r := hb1x
    have hb2 : r < m.rows := hb2x
    have hb3 : 0 ≤ c := hb3x
    have hb4 : c < m.cols := hb4x
    have hnone : lookupKey m.elements (r, c) = none := hfresh _ (List.mem_cons_self _ _)
    have hset : setElement m r c v = .ok
        { m with elements := m.elements ++ [((r, c), v)],
                 elementCount := m.elementCount + 1 } := by
      unfold setElement
      rw [if_neg (by omega), if_neg hv, if_neg (by rw [hnone]; simp)]
    simp only [List.map_cons, List.nodup_cons] at hnd
    have hrun := ih
      (m := { m with elements := m.elements ++ [((r, c), v)],
                     elementCount := m.elementCount + 1 })
      (fun e he => hnz e (List.mem_cons_of_mem _ he))
      (fun e he => hin e (List.mem_cons_of_mem _ he))
      hnd.2
      (fun e he => by
        have hm := hfresh e (List.mem_cons_of_mem _ he)
        rw [lookupKey_append_right hm]
        have hne : ((r, c) : Int × Int) ≠ (e.1, e.2.1) := by
          intro hh
          exact hnd.1 (List.mem_map.2 ⟨e, he, hh.symm⟩)
        simp [lookupKey, hne])
    simp only [commitEntries, if_pos hv, hset]
    rw [hrun]
    have hlist : (m.elements ++ [((r, c), v)]) ++
        List.map (fun e => ((e.1, e.2.1), e.2.2)) rest =
        m.elements ++ List.map (fun e => ((e.1, e.2.1), e.2.2)) ((r, c, v) :: rest) := by
      simp
    have hcount : m.elementCount + 1 + (rest.length : Int) =
        m.elementCount + ((((r, c, v) :: rest).length : Nat) : Int) := by
      simp only [List.length_cons]
      push_cast
      ring
    rw [hlist, hcount]

/-! ## Bounds on the running maxima -/

theorem foldl_max_le_init (f : (Int × Int × Int) → Int) :
    ∀ (es : List (Int × Int × Int)) (acc : Int),
      acc ≤ es.foldl (fun a e => max a (f e)) acc
  | [], acc => le_refl acc
  | e :: rest, acc =>
    le_trans (le_max_left acc (f e)) (foldl_max_le_init f rest (max acc (f e)))

theorem foldl_max_mem (f : (Int × Int × Int) → Int) :
    ∀ (es : List (Int × Int × Int)) (acc : Int) (e : Int × Int × Int), e ∈ es →
      f e ≤ es.foldl (fun a e => max a (f e)) acc
  | e0 :: rest, acc, e, h => by
    rcases List.mem_cons.1 h with h1 | h1
    · subst h1
      exact le_trans (le_max_right acc (f e)) (foldl_max_le_init f rest _)
    · exact foldl_max_mem f rest _ e h1

theorem foldl_max_lt (f : (Int × Int × Int) → Int) :
    ∀ (es : List (Int × Int × Int)) (acc bound : Int), acc < bound →
      (∀ e ∈ es, f e < bound) → es.foldl (fun a e => max a (f e)) acc < bound
  | [], _, _, h, _ => h
  | e :: rest, acc, bound, h, hall =>
    foldl_max_lt f rest _ bound (max_lt h (hall e (List.mem_cons_self _ _)))
      (fun e2 he2 => hall e2 (List.mem_cons_of_mem _ he2))

theorem maxRowOf_nonneg (es : List (Int × Int × Int)) : 0 ≤ maxRowOf es :=
  foldl_max_le_init (fun e => e.1) es 0

theorem maxColOf_nonneg (es : List (Int × Int × Int)) : 0 ≤ maxColOf es :=
  foldl_max_le_init (fun e => e.2.1) es 0

theorem le_maxRowOf {es : List (Int × Int × Int)} {e : Int × Int × Int} (h : e ∈ es) :
    e.1 ≤ maxRowOf es :=
  foldl_max_mem (fun e => e.1) es 0 e h

theorem le_maxColOf {es : List (Int × Int × Int)} {e : Int × Int × Int} (h : e ∈ es) :
    e.2.1 ≤ maxColOf es :=
  foldl_max_mem (fun e => e.2.1) es 0 e h

theorem maxRowOf_lt {es : List (Int × Int × Int)} {bound : Int} (h0 : 0 < bound)
    (h : ∀ e ∈ es, e.1 < bound) : maxRowOf es < bound :=
  foldl_max_lt (fun e => e.1) es 0 bound h0 h

theorem maxColOf_lt {es : List (Int × Int × Int)} {bound : Int} (h0 : 0 < bound)
    (h : ∀ e ∈ es, e.2.1 < bound) : maxColOf es < bound :=
  foldl_max_lt (fun e => e.2.1) es 0 bound h0 h

/-- Well-formedness: positive dimensions, in-bounds entries, duplicate-free
keys, and the sparsity invariant.  Every successfully loaded matrix has it. -/
def WF (m : SparseMatrix) : Prop :=
  0 < m.rows ∧ 0 < m.cols ∧ InBounds m ∧ NodupKeys m.elements ∧ Sparsity m

theorem loadInner_wf {data : List Char} {m : SparseMatrix}
    (h : loadInner data = .ok m) : WF m := by
  obtain ⟨r, c, es, h1, h2, h3, h4, h5, h6, h7, h8, hgrow, hnogrow⟩ := loadInner_ok_elim h
  by_cases hg : maxRowOf es ≥ r ∨ maxColOf es ≥ c
  · have hcommit := hgrow hg
    obtain ⟨hrowsx, hcolsx, hIB, hND⟩ := commitEntries_spec hcommit
    have hrows : m.rows = maxRowOf es + 1 := hrowsx
    have hcols : m.cols = maxColOf es + 1 := hcolsx
    have hsp := commitEntries_sparsity hcommit
      ⟨fun e he => absurd he (List.not_mem_nil e), rfl⟩
    refine ⟨?_, ?_, hIB (fun e he => absurd he (List.not_mem_nil e)),
      hND (by simp [NodupKeys, keysOf]), hsp⟩
    · have := maxRowOf_nonneg es
      omega
    · have := maxColOf_nonneg es
      omega
  · have hcommit := hnogrow hg
    obtain ⟨hrowsx, hcolsx, hIB, hND⟩ := commitEntries_spec hcommit
    have hrows : m.rows = r := hrowsx
    have hcols : m.cols = c := hcolsx
    have hsp := commitEntries_sparsity hcommit
      ⟨fun e he => absurd he (List.not_mem_nil e), rfl⟩
    refine ⟨by omega, by omega, hIB (fun e he => absurd he (List.not_mem_nil e)),
      hND (by simp [NodupKeys, keysOf]), hsp⟩

theorem loadFromFile_ok_iff {data : List Char} {m : SparseMatrix} :
    loadFromFile data = .ok m ↔ loadInner data = .ok m := by
  unfold loadFromFile
  cases hin : loadInner data with
  | ok mm => simp
  | error msg =>
    constructor
    · intro h
      have h2 : (if containsSub msg.data "wrong format".data = true then
          (Except.error wrongFormatMsg : Except String SparseMatrix)
          else Except.error msg) = Except.ok m := h
      split_ifs at h2
    · intro h
      simp at h

theorem loadFromFile_error_eq {data : List Char} {msg : String}
    (h : loadInner data = .error msg) :
    loadFromFile data = if containsSub msg.data "wrong format".data then
      .error wrongFormatMsg else .error msg := by
  unfold loadFromFile
  rw [h]

/-! ## Character classes of the decimal renderings -/

theorem not_lt_zero_char_ne {c x : Char} (h : ¬ c < '0') (hx : x < '0') : c ≠ x := by
  intro he
  subst he
  exact h hx

theorem isWS_eq_false_of_digit {c : Char} (h : ¬ c < '0') : isWS c = false := by
  unfold isWS
  have h1 : c ≠ ' ' := not_lt_zero_char_ne h (by decide)
  have h2 : c ≠ '\t' := not_lt_zero_char_ne h (by decide)
  have h3 : c ≠ '\n' := not_lt_zero_char_ne h (by decide)
  have h4 : c ≠ '\r' := not_lt_zero_char_ne h (by decide)
  simp [h1, h2, h3, h4]

theorem digit_char_spec {d : Nat} (hd : d < 10) :
    ¬ (Char.ofNat (48 + d) < '0') ∧ ¬ ('9' < Char.ofNat (48 + d)) ∧
      (Char.ofNat (48 + d)).toNat = 48 + d := by
  interval_cases d <;> exact ⟨by decide, by decide, by decide⟩

theorem natToCharsAux_irrel : ∀ (n f1 f2 : Nat), n < f1 → n < f2 →
    natToCharsAux f1 n = natToCharsAux f2 n := by
  intro n
  induction n using Nat.strong_induction_on with
  | _ n ih =>
    intro f1 f2 h1 h2
    cases f1 with
    | zero => omega
    | succ g1 =>
      cases f2 with
      | zero => omega
      | succ g2 =>
        simp only [natToCharsAux]
        by_cases h10 : n < 10
        · rw [if_pos h10, if_pos h10]
        · rw [if_neg h10, if_neg h10]
          have hdiv : n / 10 < n := Nat.div_lt_self (by omega) (by omega)
          rw [ih (n / 10) hdiv g1 g2 (by omega) (by omega)]

/-- Unfolding equation of `natToChars` that hides the fuel. -/
theorem natToChars_eq (n : Nat) : natToChars n =
    if n < 10 then [Char.ofNat (48 + n)]
    else natToChars (n / 10) ++ [Char.ofNat (48 + n % 10)] := by
  have h1 : natToChars n = natToCharsAux (n + 1) n := rfl
  have h2 : natToChars (n / 10) = natToCharsAux (n / 10 + 1) (n / 10) := rfl
  rw [h1]
  simp only [natToCharsAux]
  by_cases h10 : n < 10
  · rw [if_pos h10, if_pos h10]
  · rw [if_neg h10, if_neg h10]
    have hdiv : n / 10 < n := Nat.div_lt_self (by omega) (by omega)
    rw [natToCharsAux_irrel (n / 10) n (n / 10 + 1) (by omega) (by omega), ← h2]

theorem natToChars_digits (n : Nat) :
    natToChars n ≠ [] ∧ ∀ c ∈ natToChars n, ¬ (c < '0') ∧ ¬ ('9' < c) := by
  induction n using Nat.strong_induction_on with
  | _ n ih =>
    rw [natToChars_eq]
    by_cases h10 : n < 10
    · rw [if_pos h10]
      obtain ⟨hc1, hc2, -⟩ := digit_char_spec h10
      refine ⟨by simp, ?_⟩
      intro c hc
      simp only [List.mem_singleton] at hc
      subst hc
      exact ⟨hc1, hc2⟩
    · rw [if_neg h10]
      have hdiv : n / 10 < n := Nat.div_lt_self (by omega) (by omega)
      obtain ⟨hne, hall⟩ := ih (n / 10) hdiv
      refine ⟨by simp [hne], ?_⟩
      intro c hc
      rcases List.mem_append.1 hc with h1 | h1
      · exact hall c h1
      · simp only [List.mem_singleton] at h1
        subst h1
        obtain ⟨hc1, hc2, -⟩ := digit_char_spec (d := n % 10) (by omega)
        exact ⟨hc1, hc2⟩

theorem digitsVal_append (a b : List Char) (acc : Nat) :
    digitsVal (a ++ b) acc =
      match digitsVal a acc with
      | some x => digitsVal b x
      | none => none := by
  induction a generalizing acc with
  | nil => simp [digitsVal]
  | cons c rest ih =>
    simp only [List.cons_append, digitsVal]
    by_cases hc : c < '0' ∨ '9' < c
    · rw [if_pos hc, if_pos hc]
    · rw [if_neg hc, if_neg hc]
      simp only [List.append_eq]
      rw [ih]

theorem digitsVal_natToChars (n : Nat) : ∀ acc,
    digitsVal (natToChars n) acc = some (acc * 10 ^ (natToChars n).length + n) := by
  induction n using Nat.strong_induction_on with
  | _ n ih =>
    intro acc
    rw [natToChars_eq]
    by_cases h10 : n < 10
    · rw [if_pos h10]
      obtain ⟨hc1, hc2, htoNat⟩ := digit_char_spec h10
      simp only [digitsVal, if_neg (not_or.2 ⟨hc1, hc2⟩)]
      rw [htoNat]
      simp only [pow_one, Option.some.injEq, List.length_singleton]
      omega
    · rw [if_neg h10]
      have hdiv : n / 10 < n := Nat.div_lt_self (by omega) (by omega)
      rw [digitsVal_append, ih (n / 10) hdiv acc]
      obtain ⟨hc1, hc2, htoNat⟩ := digit_char_spec (d := n % 10) (by omega)
      simp only [digitsVal, if_neg (not_or.2 ⟨hc1, hc2⟩)]
      rw [htoNat]
      simp only [List.length_append, List.length_singleton, Option.some.injEq]
      rw [pow_succ]
      have hmod := Nat.div_add_mod n 10
      ring_nf
      omega

theorem jsParseInt_natToChars (n : Nat) : jsParseInt (natToChars n) = some (n : Int) := by
  obtain ⟨hne, hall⟩ := natToChars_digits n
  obtain ⟨c, t, hct⟩ := List.exists_cons_of_ne_nil hne
  have hcdig := hall c (by rw [hct]; exact List.mem_cons_self _ _)
  have hcne : c ≠ '-' := not_lt_zero_char_ne hcdig.1 (by decide)
  unfold jsParseInt
  rw [if_neg hne, if_neg (by rw [hct]; simp [hcne])]
  rw [digitsVal_natToChars n 0]
  simp

theorem jsParseInt_intToChars (i : Int) : jsParseInt (intToChars i) = some i := by
  cases i with
  | ofNat n => exact jsParseInt_natToChars n
  | negSucc n =>
    show jsParseInt ('-' :: natToChars (n + 1)) = some (Int.negSucc n)
    unfold jsParseInt
    rw [if_neg (by simp), if_pos (by simp)]
    simp only [List.drop_succ_cons, List.drop_zero]
    rw [digitsVal_natToChars (n + 1) 0, Int.negSucc_eq]
    simp

theorem intToChars_classes (i : Int) :
    ∀ c ∈ intToChars i, c = '-' ∨ (¬ (c < '0') ∧ ¬ ('9' < c)) := by
  cases i with
  | ofNat n =>
    intro c hc
    exact Or.inr ((natToChars_digits n).2 c hc)
  | negSucc n =>
    intro c hc
    rcases List.mem_cons.1 hc with h1 | h1
    · exact Or.inl h1
    · exact Or.inr ((natToChars_digits (n + 1)).2 c h1)

theorem intToChars_ne_nil (i : Int) : intToChars i ≠ [] := by
  cases i with
  | ofNat n => exact (natToChars_digits n).1
  | negSucc n => simp [intToChars]

/-- Rendered integers start with a non-whitespace character. -/
theorem intToChars_head (i : Int) :
    ∃ c t, intToChars i = c :: t ∧ isWS c = false := by
  cases i with
  | ofNat n =>
    obtain ⟨hne, hall⟩ := natToChars_digits n
    obtain ⟨c, t, hct⟩ := List.exists_cons_of_ne_nil hne
    refine ⟨c, t, hct, ?_⟩
    exact isWS_eq_false_of_digit (hall c (by rw [hct]; exact List.mem_cons_self _ _)).1
  | negSucc n =>
    exact ⟨'-', natToChars (n + 1), rfl, by decide⟩

/-- Rendered integers end with a digit. -/
theorem intToChars_last (i : Int) :
    ∃ l c, intToChars i = l ++ [c] ∧ ¬ (c < '0') ∧ ¬ ('9' < c) := by
  have hnat : ∀ n : Nat, ∃ l c, natToChars n = l ++ [c] ∧ ¬ (c < '0') ∧ ¬ ('9' < c) := by
    intro n
    rw [natToChars_eq]
    by_cases h10 : n < 10
    · rw [if_pos h10]
      obtain ⟨h1, h2, -⟩ := digit_char_spec h10
      exact ⟨[], _, rfl, h1, h2⟩
    · rw [if_neg h10]
      obtain ⟨h1, h2, -⟩ := digit_char_spec (d := n % 10) (by omega)
      exact ⟨natToChars (n / 10), _, rfl, h1, h2⟩
  cases i with
  | ofNat n => exact hnat n
  | negSucc n =>
    obtain ⟨l, c, hlc, h1, h2⟩ := hnat (n + 1)
    exact ⟨'-' :: l, c, by simp [intToChars, hlc], h1, h2⟩

/-- No rendered integer contains a comma, a newline, a parenthesis or
whitespace. -/
theorem intToChars_avoid (i : Int) {x : Char} (hx : x < '0') (hx2 : x ≠ '-') :
    x ∉ intToChars i := by
  intro hmem
  rcases intToChars_classes i x hmem with h | h
  · exact hx2 h
  · exact h.1 hx

/-! ## Splitting and trimming the serialized text -/

theorem splitAux_no_delim {d : Char} : ∀ {l : List Char} (acc : List Char), d ∉ l →
    splitAux d l acc = [acc.reverse ++ l] := by
  intro l
  induction l with
  | nil =>
    intro acc h
    simp [splitAux]
  | cons c rest ih =>
    intro acc h
    simp only [List.mem_cons, not_or] at h
    simp only [splitAux, if_neg (Ne.symm h.1)]
    rw [ih (c :: acc) h.2]
    simp

theorem splitAux_delim {d : Char} : ∀ {l1 : List Char} (l2 acc : List Char), d ∉ l1 →
    splitAux d (l1 ++ d :: l2) acc = (acc.reverse ++ l1) :: splitAux d l2 [] := by
  intro l1
  induction l1 with
  | nil =>
    intro l2 acc h
    simp [splitAux]
  | cons c rest ih =>
    intro l2 acc h
    simp only [List.mem_cons, not_or] at h
    simp only [List.cons_append, splitAux, if_neg (Ne.symm h.1), List.append_eq]
    rw [ih l2 (c :: acc) h.2]
    simp

/-- Concatenation of lines, each terminated by a newline, as `toString` builds it. -/
def joinNL : List (List Char) → List Char
  | [] => []
  | l :: rest => l ++ '\n' :: joinNL rest

theorem splitString_joinNL : ∀ (ls : List (List Char)), (∀ l ∈ ls, '\n' ∉ l) →
    splitString (joinNL ls) '\n' = ls ++ [[]] := by
  intro ls
  induction ls with
  | nil =>
    intro h
    simp [joinNL, splitString, splitAux]
  | cons l rest ih =>
    intro h
    unfold splitString at ih ⊢
    simp only [joinNL]
    rw [splitAux_delim (joinNL rest) [] (h l (List.mem_cons_self _ _))]
    rw [ih (fun x hx => h x (List.mem_cons_of_mem _ hx))]
    simp

theorem trimChars_eq_self {l : List Char}
    (h1 : ∀ c, l.head? = some c → isWS c = false)
    (h2 : ∀ c, l.getLast? = some c → isWS c = false) : trimChars l = l := by
  cases l with
  | nil => rfl
  | cons a t =>
    unfold trimChars
    rw [List.dropWhile_cons, if_neg (by rw [h1 a rfl]; simp)]
    have h3 : (a :: t).reverse ≠ [] := by simp
    obtain ⟨b, rest, hbr⟩ := List.exists_cons_of_ne_nil h3
    have hb : isWS b = false := by
      apply h2
      rw [← List.head?_reverse, hbr]
      rfl
    rw [hbr, List.dropWhile_cons, if_neg (by rw [hb]; simp), ← hbr]
    simp

theorem trimChars_cons_space (l : List Char) : trimChars (' ' :: l) = trimChars l := by
  unfold trimChars
  rw [List.dropWhile_cons, if_pos (show isWS ' ' = true by decide)]

theorem trimChars_intToChars (i : Int) : trimChars (intToChars i) = intToChars i := by
  apply trimChars_eq_self
  · intro c hc
    obtain ⟨c0, t, hct, hws⟩ := intToChars_head i
    rw [hct] at hc
    simp only [List.head?_cons, Option.some.injEq] at hc
    rw [← hc]
    exact hws
  · intro c hc
    obtain ⟨l, b, hlb, hb1, -⟩ := intToChars_last i
    rw [hlb, List.getLast?_concat] at hc
    simp only [Option.some.injEq] at hc
    rw [← hc]
    exact isWS_eq_false_of_digit hb1

theorem filterMap_trim_id {L : List (List Char)}
    (h : ∀ l ∈ L, trimChars l = l ∧ l ≠ []) :
    (L.filterMap fun l => if trimChars l = [] then none else some (trimChars l)) = L := by
  induction L with
  | nil => rfl
  | cons l rest ih =>
    obtain ⟨ht, hne⟩ := h l (List.mem_cons_self _ _)
    simp only [List.filterMap_cons, ht, if_neg hne]
    rw [ih (fun x hx => h x (List.mem_cons_of_mem _ hx))]

/-! ## Parsing a rendered entry line -/

theorem comma_not_mem_intToChars (i : Int) : ',' ∉ intToChars i :=
  intToChars_avoid i (by decide) (by decide)

theorem newline_not_mem_intToChars (i : Int) : '\n' ∉ intToChars i :=
  intToChars_avoid i (by decide) (by decide)

theorem parseElementLine_entryLine (e : Entry) :
    parseElementLine (entryLine e) = some (e.1.1, e.1.2, e.2) := by
  obtain ⟨⟨r, c⟩, v⟩ := e
  have hline : entryLine ((r, c), v) =
      '(' :: (intToChars r ++ ',' :: ' ' :: (intToChars c ++ ',' :: ' ' ::
        (intToChars v ++ [')']))) := by
    unfold entryLine
    simp
  rw [hline]
  unfold parseElementLine
  have hlast : ('(' :: (intToChars r ++ ',' :: ' ' :: (intToChars c ++ ',' :: ' ' ::
      (intToChars v ++ [')'])))).getLast? = some ')' := by
    have hshape : '(' :: (intToChars r ++ ',' :: ' ' :: (intToChars c ++ ',' :: ' ' ::
        (intToChars v ++ [')']))) =
        ('(' :: (intToChars r ++ ',' :: ' ' :: (intToChars c ++ ',' :: ' ' ::
          intToChars v))) ++ [')'] := by
      simp
    rw [hshape, List.getLast?_concat]
  rw [if_pos ⟨rfl, hlast⟩]
  have hdrop : (('(' :: (intToChars r ++ ',' :: ' ' :: (intToChars c ++ ',' :: ' ' ::
      (intToChars v ++ [')'])))).drop 1).dropLast =
      intToChars r ++ ',' :: (' ' :: (intToChars c ++ ',' :: (' ' :: intToChars v))) := by
    simp only [List.drop_succ_cons, List.drop_zero]
    have hshape : intToChars r ++ ',' :: ' ' :: (intToChars c ++ ',' :: ' ' ::
        (intToChars v ++ [')'])) =
        (intToChars r ++ ',' :: (' ' :: (intToChars c ++ ',' :: (' ' :: intToChars v)))) ++
          [')'] := by
      simp
    rw [hshape, List.dropLast_concat]
  rw [hdrop]
  unfold splitString
  rw [splitAux_delim _ [] (comma_not_mem_intToChars r)]
  have hnc : ',' ∉ ' ' :: (intToChars c) := by
    simp only [List.mem_cons, not_or]
    exact ⟨by decide, comma_not_mem_intToChars c⟩
  have hshape2 : (' ' :: (intToChars c ++ ',' :: (' ' :: intToChars v))) =
      (' ' :: intToChars c) ++ ',' :: (' ' :: intToChars v) := by
    simp
  rw [hshape2, splitAux_delim _ [] hnc]
  rw [splitAux_no_delim [] (by
    simp only [List.mem_cons, not_or]
    exact ⟨by decide, comma_not_mem_intToChars v⟩)]
  simp only [List.reverse_nil, List.nil_append]
  rw [trimChars_intToChars r, trimChars_cons_space, trimChars_intToChars c,
    trimChars_cons_space, trimChars_intToChars v]
  rw [jsParseInt_intToChars r, jsParseInt_intToChars c, jsParseInt_intToChars v]

/-! ## The serialized text, line by line -/

theorem foldl_append_entryLine (sorted : List Entry) (init : List Char) :
    sorted.foldl (fun acc e => acc ++ entryLine e ++ ['\n']) init
      = init ++ joinNL (sorted.map entryLine) := by
  induction sorted generalizing init with
  | nil => simp [joinNL]
  | cons e rest ih =>
    simp only [List.foldl_cons, List.map_cons, joinNL]
    rw [ih]
    simp

theorem toString_eq_joinNL (m : SparseMatrix) :
    toString m = joinNL (("rows=".data ++ intToChars m.rows) ::
      ("cols=".data ++ intToChars m.cols) :: (sortEntries m.elements).map entryLine) := by
  unfold toString
  rw [foldl_append_entryLine]
  simp [joinNL]

theorem not_mem_appendL {x : Char} {l1 l2 : List Char} (h1 : x ∉ l1) (h2 : x ∉ l2) :
    x ∉ l1 ++ l2 := by
  simp [List.mem_append, h1, h2]

theorem not_mem_consL {x y : Char} {l : List Char} (h1 : x ≠ y) (h2 : x ∉ l) :
    x ∉ y :: l := by
  simp [h1, h2]

theorem entryLine_no_newline (e : Entry) : '\n' ∉ entryLine e := by
  obtain ⟨⟨r, c⟩, v⟩ := e
  have hline : entryLine ((r, c), v) =
      '(' :: (intToChars r ++ ',' :: ' ' :: (intToChars c ++ ',' :: ' ' ::
        (intToChars v ++ [')']))) := by
    unfold entryLine
    simp
  rw [hline]
  apply not_mem_consL (by decide)
  apply not_mem_appendL (newline_not_mem_intToChars r)
  apply not_mem_consL (by decide)
  apply not_mem_consL (by decide)
  apply not_mem_appendL (newline_not_mem_intToChars c)
  apply not_mem_consL (by decide)
  apply not_mem_consL (by decide)
  apply not_mem_appendL (newline_not_mem_intToChars v)
  decide

theorem header_no_newline (pre : List Char) (hpre : '\n' ∉ pre) (i : Int) :
    '\n' ∉ pre ++ intToChars i :=
  not_mem_appendL hpre (newline_not_mem_intToChars i)

theorem trimChars_header (c0 : Char) (pre : List Char) (i : Int)
    (hc0 : isWS c0 = false) :
    trimChars ((c0 :: pre) ++ intToChars i) = (c0 :: pre) ++ intToChars i := by
  apply trimChars_eq_self
  · intro c hc
    simp only [List.cons_append, List.head?_cons, Option.some.injEq] at hc
    rw [← hc]
    exact hc0
  · intro c hc
    obtain ⟨l, b, hlb, hb1, -⟩ := intToChars_last i
    rw [hlb, show (c0 :: pre) ++ (l ++ [b]) = ((c0 :: pre) ++ l) ++ [b] by simp,
      List.getLast?_concat] at hc
    simp only [Option.some.injEq] at hc
    rw [← hc]
    exact isWS_eq_false_of_digit hb1

theorem trimChars_entryLine (e : Entry) : trimChars (entryLine e) = entryLine e := by
  obtain ⟨⟨r, c⟩, v⟩ := e
  apply trimChars_eq_self
  · intro x hx
    unfold entryLine at hx
    simp only [List.cons_append, List.head?_cons, Option.some.injEq] at hx
    rw [← hx]
    decide
  · intro x hx
    have hshape : entryLine ((r, c), v) =
        ('(' :: (intToChars r ++ ',' :: ' ' :: (intToChars c ++ ',' :: ' ' ::
          intToChars v))) ++ [')'] := by
      unfold entryLine
      simp
    rw [hshape, List.getLast?_concat] at hx
    simp only [Option.some.injEq] at hx
    rw [← hx]
    decide

theorem entryLine_ne_nil (e : Entry) : entryLine e ≠ [] := by
  obtain ⟨⟨r, c⟩, v⟩ := e
  unfold entryLine
  simp

/-- The non-blank lines of the serialized text are exactly the two header
lines followed by one line per sorted entry. -/
theorem validLinesOf_toString (m : SparseMatrix) :
    validLinesOf (toString m) =
      ("rows=".data ++ intToChars m.rows) :: ("cols=".data ++ intToChars m.cols)
        :: (sortEntries m.elements).map entryLine := by
  rw [toString_eq_joinNL]
  unfold validLinesOf
  rw [splitString_joinNL _ ?hnl]
  case hnl =>
    intro l hl
    rcases List.mem_cons.1 hl with h | h
    · subst h
      exact header_no_newline _ (by decide) _
    rcases List.mem_cons.1 h with h2 | h2
    · subst h2
      exact header_no_newline _ (by decide) _
    · obtain ⟨e, -, he⟩ := List.mem_map.1 h2
      rw [← he]
      exact entryLine_no_newline e
  rw [List.filterMap_append]
  have hnil : (([] : List (List Char)).filterMap fun l =>
      if trimChars l = [] then none else some (trimChars l)) = [] := rfl
  have hnil2 : (([([] : List Char)]).filterMap fun l =>
      if trimChars l = [] then none else some (trimChars l)) = [] := rfl
  rw [hnil2, List.append_nil]
  apply filterMap_trim_id
  intro l hl
  rcases List.mem_cons.1 hl with h | h
  · subst h
    exact ⟨trimChars_header 'r' _ m.rows rfl, by simp⟩
  rcases List.mem_cons.1 h with h2 | h2
  · subst h2
    exact ⟨trimChars_header 'c' _ m.cols rfl, by simp⟩
  · obtain ⟨e, -, he⟩ := List.mem_map.1 h2
    rw [← he]
    exact ⟨trimChars_entryLine e, entryLine_ne_nil e⟩

/-! ## The sort of `toString` is a permutation -/

theorem insertEntry_perm (e : Entry) (l : List Entry) : (insertEntry e l).Perm (e :: l) := by
  induction l with
  | nil => exact List.Perm.refl _
  | cons f rest ih =>
    unfold insertEntry
    by_cases h : entryLE e f
    · rw [if_pos h]
    · rw [if_neg h]
      exact (ih.cons f).trans (List.Perm.swap e f rest)

theorem sortEntries_perm (l : List Entry) : (sortEntries l).Perm l := by
  induction l with
  | nil => exact List.Perm.refl _
  | cons e rest ih =>
    exact (insertEntry_perm e (sortEntries rest)).trans (ih.cons e)

/-! ## Lookup is invariant under permutation of a duplicate-free list -/

theorem lookupKey_mem {l : List Entry} {k : Int × Int} {v : Int}
    (h : lookupKey l k = some v) : (k, v) ∈ l := by
  induction l with
  | nil => simp [lookupKey] at h
  | cons f rest ih =>
    obtain ⟨k0, v0⟩ := f
    by_cases hk : k0 = k
    · subst hk
      simp [lookupKey] at h
      subst h
      exact List.mem_cons_self _ _
    · simp only [lookupKey, if_neg hk] at h
      exact List.mem_cons_of_mem _ (ih h)

theorem mem_lookupKey {l : List Entry} {k : Int × Int} {v : Int}
    (hnd : NodupKeys l) (h : (k, v) ∈ l) : lookupKey l k = some v := by
  induction l with
  | nil => simp at h
  | cons f rest ih =>
    obtain ⟨k0, v0⟩ := f
    simp only [NodupKeys, keysOf, List.map_cons, List.nodup_cons] at hnd
    rcases List.mem_cons.1 h with h1 | h1
    · rw [← h1]
      simp [lookupKey]
    · by_cases hk : k0 = k
      · subst hk
        exact absurd (List.mem_map.2 ⟨(k0, v), h1, rfl⟩) hnd.1
      · simp only [lookupKey, if_neg hk]
        exact ih hnd.2 h1

theorem lookupKey_perm {l1 l2 : List Entry} (hp : l1.Perm l2) (hnd : NodupKeys l1) :
    ∀ k, lookupKey l1 k = lookupKey l2 k := by
  intro k
  have hnd2 : NodupKeys l2 := by
    unfold NodupKeys keysOf at hnd ⊢
    exact (hp.map fun e => e.1).nodup_iff.1 hnd
  cases hcase : lookupKey l1 k with
  | some v =>
    exact (mem_lookupKey hnd2 (hp.mem_iff.1 (lookupKey_mem hcase))).symm
  | none =>
    rw [lookupKey_eq_none] at hcase
    have h2 : lookupKey l2 k = none := by
      rw [lookupKey_eq_none]
      intro hmem
      apply hcase
      unfold keysOf at hmem ⊢
      exact ((hp.map fun e => e.1).mem_iff).2 hmem
    rw [h2]

/-! ## Round trip: reparse the serialization -/

theorem parseEntries_map_entryLine (l : List Entry) :
    parseEntries (l.map entryLine) = some (l.map fun e => (e.1.1, e.1.2, e.2)) := by
  induction l with
  | nil => rfl
  | cons e rest ih =>
    simp only [List.map_cons, parseEntries, parseElementLine_entryLine e, ih]

theorem isPre_append (p t : List Char) : isPre p (p ++ t) = true := by
  induction p with
  | nil => rfl
  | cons c rest ih => simp [isPre, ih]

/-- A well-formed matrix with at least one stored entry reparses from its own
serialization: same dimensions, same stored values at every key. -/
theorem reparse_toString {m : SparseMatrix} (hwf : WF m) (hne : m.elements ≠ []) :
    ∃ m2, loadFromFile (toString m) = .ok m2 ∧ m2.rows = m.rows ∧ m2.cols = m.cols ∧
      ∀ k, lookupKey m2.elements k = lookupKey m.elements k := by
  obtain ⟨hrpos, hcpos, hIB, hND, hz, hcount⟩ := hwf
  have hperm : (sortEntries m.elements).Perm m.elements := sortEntries_perm m.elements
  have hndsorted : NodupKeys (sortEntries m.elements) := by
    unfold NodupKeys keysOf at hND ⊢
    exact (hperm.map fun e => e.1).nodup_iff.2 hND
  set sorted := sortEntries m.elements with hsorted
  set es : List (Int × Int × Int) := sorted.map fun e => (e.1.1, e.1.2, e.2) with hes
  have hvl := validLinesOf_toString m
  have hL0 : (validLinesOf (toString m)).headD [] = "rows=".data ++ intToChars m.rows := by
    rw [hvl]; rfl
  have hL1 : ((validLinesOf (toString m)).drop 1).headD [] =
      "cols=".data ++ intToChars m.cols := by
    rw [hvl]; rfl
  have hL2 : (validLinesOf (toString m)).drop 2 = sorted.map entryLine := by
    rw [hvl]; rfl
  have hlen : ¬ (validLinesOf (toString m)).length < 3 := by
    rw [hvl, ← hsorted]
    simp only [List.length_cons, List.length_map]
    have hl1 : sorted.length = m.elements.length := hperm.length_eq
    have h1 : m.elements.length ≠ 0 := fun hh => hne (List.length_eq_zero.1 hh)
    omega
  have hdrop0 : (("rows=".data ++ intToChars m.rows).drop 5) = intToChars m.rows := by
    have h5 : ("rows=".data).length = 5 := by decide
    rw [← h5, List.drop_left]
  have hdrop1 : (("cols=".data ++ intToChars m.cols).drop 5) = intToChars m.cols := by
    have h5 : ("cols=".data).length = 5 := by decide
    rw [← h5, List.drop_left]
  have hmem_es : ∀ e ∈ es, ∃ f ∈ m.elements, e = (f.1.1, f.1.2, f.2) := by
    intro e he
    obtain ⟨f, hf, hfe⟩ := List.mem_map.1 he
    exact ⟨f, hperm.mem_iff.1 hf, hfe.symm⟩
  have hrowlt : maxRowOf es < m.rows := by
    apply maxRowOf_lt hrpos
    intro e he
    obtain ⟨f, hf, hfe⟩ := hmem_es e he
    rw [hfe]
    exact (hIB f hf).2.1
  have hcollt : maxColOf es < m.cols := by
    apply maxColOf_lt hcpos
    intro e he
    obtain ⟨f, hf, hfe⟩ := hmem_es e he
    rw [hfe]
    exact (hIB f hf).2.2.2
  have hinner := @loadInner_eq_commit (toString m) m.rows m.cols es hlen
    (by rw [hL0]; exact isPre_append _ _)
    (by rw [hL1]; exact isPre_append _ _)
    (by rw [hL0, hdrop0]; exact jsParseInt_intToChars m.rows)
    (by rw [hL1, hdrop1]; exact jsParseInt_intToChars m.cols)
    hrpos hcpos
    (by rw [hL2]; exact parseEntries_map_entryLine sorted)
  rw [if_neg (by push_neg; exact ⟨hrowlt, hcollt⟩)] at hinner
  have hkeys : (es.map fun e => ((e.1, e.2.1) : Int × Int)).Nodup := by
    have heq : (es.map fun e => ((e.1, e.2.1) : Int × Int)) = keysOf sorted := by
      rw [hes]
      unfold keysOf
      rw [List.map_map]
      rfl
    rw [heq]
    exact hndsorted
  have hcommit := @commitEntries_exact es ⟨m.rows, m.cols, [], 0⟩
    (by
      intro e he
      obtain ⟨f, hf, hfe⟩ := hmem_es e he
      rw [hfe]
      exact hz f hf)
    (by
      intro e he
      obtain ⟨f, hf, hfe⟩ := hmem_es e he
      rw [hfe]
      exact ⟨(hIB f hf).1, (hIB f hf).2.1, (hIB f hf).2.2.1, (hIB f hf).2.2.2⟩)
    hkeys
    (fun e he => rfl)
  have hback : es.map (fun e => ((e.1, e.2.1), e.2.2)) = sorted := by
    rw [hes, List.map_map]
    have hid : ((fun (e : Int × Int × Int) => ((e.1, e.2.1), e.2.2)) ∘
        fun (e : Entry) => (e.1.1, e.1.2, e.2)) = id := by
      funext f
      rfl
    rw [hid, List.map_id]
  rw [hback] at hcommit
  rw [hcommit] at hinner
  refine ⟨⟨m.rows, m.cols, [] ++ sorted, 0 + (es.length : Int)⟩,
    loadFromFile_ok_iff.2 hinner, rfl, rfl, ?_⟩
  intro k
  simp only [List.nil_append]
  exact lookupKey_perm hperm hndsorted k

/-! ## Classification of the loader error messages -/

theorem setElement_error_msg {m : SparseMatrix} {r c v : Int} {msg : String}
    (h : setElement m r c v = .error msg) : msg = oobMsg := by
  unfold setElement at h
  split_ifs at h <;> simp_all

theorem commitEntries_error_msg {es : List (Int × Int × Int)} {m : SparseMatrix} {msg : String}
    (h : commitEntries m es = .error msg) : msg = oobMsg := by
  induction es generalizing m with
  | nil => simp [commitEntries] at h
  | cons e rest ih =>
    obtain ⟨r, c, v⟩ := e
    simp only [commitEntries] at h
    by_cases hv : v ≠ 0
    · rw [if_pos hv] at h
      cases hset : setElement m r c v with
      | ok mm =>
        rw [hset] at h
        exact ih h
      | error err =>
        rw [hset] at h
        simp only [Except.error.injEq] at h
        rw [← h]
        exact setElement_error_msg hset
    · rw [if_neg hv] at h
      exact ih h

theorem loadInner_error_cases {data : List Char} {msg : String}
    (h : loadInner data = .error msg) :
    msg = fmtInsufficient ∨ msg = fmtRowsSpec ∨ msg = fmtColsSpec ∨ msg = fmtInvalidDims ∨
    (msg = fmtBadLine ∧ parseEntries ((validLinesOf data).drop 2) = none) ∨
    (msg = oobMsg ∧ ∃ es, parseEntries ((validLinesOf data).drop 2) = some es) := by
  unfold loadInner at h
  split at h
  · simp only [Except.error.injEq] at h
    exact Or.inl h.symm
  split at h
  · simp only [Except.error.injEq] at h
    exact Or.inr (Or.inl h.symm)
  split at h
  · simp only [Except.error.injEq] at h
    exact Or.inr (Or.inr (Or.inl h.symm))
  split at h
  next r c heqr heqc =>
    split at h
    · simp only [Except.error.injEq] at h
      exact Or.inr (Or.inr (Or.inr (Or.inl h.symm)))
    split at h
    next heqes =>
      simp only [Except.error.injEq] at h
      exact Or.inr (Or.inr (Or.inr (Or.inr (Or.inl ⟨h.symm, heqes⟩))))
    next es heqes =>
      split at h
      · exact Or.inr (Or.inr (Or.inr (Or.inr (Or.inr
          ⟨commitEntries_error_msg h, es, heqes⟩))))
      · exact Or.inr (Or.inr (Or.inr (Or.inr (Or.inr
          ⟨commitEntries_error_msg h, es, heqes⟩))))
  next =>
    simp only [Except.error.injEq] at h
    exact Or.inr (Or.inr (Or.inr (Or.inl h.symm)))

theorem parseEntries_none_of_bad {L : List (List Char)} {l : List Char}
    (hl : l ∈ L) (hbad : parseElementLine l = none) : parseEntries L = none := by
  induction L with
  | nil => simp at hl
  | cons x rest ih =>
    rcases List.mem_cons.1 hl with h | h
    · subst h
      simp [parseEntries, hbad]
    · cases hx : parseElementLine x <;> simp [parseEntries, hx, ih h]

/-! ## Claim theorems -/

/-- C1, counterexample: the round-trip property fails exactly at the corner
case the claim includes.  The document `rows=2\ncols=2\n(0,0,0)` is valid and
parses to a matrix with no stored elements, but its serialization consists of
the two header lines only, so reparsing it fails the three-non-blank-lines
check with the uniform wrong-format error instead of succeeding. -/
theorem C1_cex :
    loadFromFile "rows=2\ncols=2\n(0,0,0)".data = .ok ⟨2, 2, [], 0⟩ ∧
    loadFromFile (toString ⟨2, 2, [], 0⟩) = .error wrongFormatMsg :=
  ⟨rfl, rfl⟩

/-- C1, amended: for every document that parses successfully to a matrix that
stores at least one element, serializing and reparsing succeeds and yields a
matrix with the same dimensions and the same stored (non-zero) entries; the
all-zero case is excluded because serialization then emits only the two
header lines and reparsing fails. -/
theorem C1_roundtrip_amended (doc : List Char) (m : SparseMatrix)
    (h : loadFromFile doc = .ok m) (hne : m.elements ≠ []) :
    ∃ m2, loadFromFile (toString m) = .ok m2 ∧ m2.rows = m.rows ∧ m2.cols = m.cols ∧
      ∀ k, lookupKey m2.elements k = lookupKey m.elements k :=
  reparse_toString (loadInner_wf (loadFromFile_ok_iff.1 h)) hne

/-- Witness for the amended C1 at a concrete document. -/
theorem C1_witness :
    loadFromFile "rows=2\ncols=2\n(0, 1, 5)".data = .ok ⟨2, 2, [((0, 1), 5)], 1⟩ ∧
    (⟨2, 2, [((0, 1), 5)], 1⟩ : SparseMatrix).elements ≠ [] ∧
    ∃ m2, loadFromFile (toString ⟨2, 2, [((0, 1), 5)], 1⟩) = .ok m2 ∧
      m2.rows = 2 ∧ m2.cols = 2 ∧
      ∀ k, lookupKey m2.elements k = lookupKey [((0, 1), 5)] k :=
  ⟨rfl, by decide, C1_roundtrip_amended "rows=2\ncols=2\n(0, 1, 5)".data
    ⟨2, 2, [((0, 1), 5)], 1⟩ rfl (by decide)⟩

/-- C2, counterexample: loading `rows=2`, `cols=2` with the single entry
`(5, 0, 7)` produces a 6-by-1 matrix, not the 6-by-2 matrix the claim states:
the growth branch overwrites BOTH dimensions with `maxRow+1` and `maxCol+1`,
and the maximal observed column is 0. -/
theorem C2_cex :
    loadFromFile "rows=2\ncols=2\n(5, 0, 7)".data = .ok ⟨6, 1, [((5, 0), 7)], 1⟩ ∧
    (⟨6, 1, [((5, 0), 7)], 1⟩ : SparseMatrix).cols ≠ 2 :=
  ⟨rfl, by decide⟩

/-- C2, amended: the loaded matrix has `rows = 6` and `cols = 1` (both
dimensions are overwritten by the growth rule), and `getElement(5,0)`
returns 7. -/
theorem C2_amended :
    loadFromFile "rows=2\ncols=2\n(5, 0, 7)".data = .ok ⟨6, 1, [((5, 0), 7)], 1⟩ ∧
    (⟨6, 1, [((5, 0), 7)], 1⟩ : SparseMatrix).rows = 6 ∧
    (⟨6, 1, [((5, 0), 7)], 1⟩ : SparseMatrix).cols = 1 ∧
    getElement ⟨6, 1, [((5, 0), 7)], 1⟩ 5 0 = .ok 7 :=
  ⟨rfl, rfl, rfl, rfl⟩

/-- C3, counterexample: the claim computes `maxRow`/`maxCol` as the maxima of
the coordinates over the parsed entries, but the code folds `Math.max` from
an initial value of 0.  For the valid document `rows=1\ncols=1\n(5, -2, 0)`
the entry maxima are 5 and -2, growth is triggered by the row, and the
claimed final dimensions would be `6 x (-1)`; the code produces `6 x 1`. -/
theorem C3_cex :
    parseEntries ((validLinesOf "rows=1\ncols=1\n(5, -2, 0)".data).drop 2) =
      some [(5, -2, 0)] ∧
    loadFromFile "rows=1\ncols=1\n(5, -2, 0)".data = .ok ⟨6, 1, [], 0⟩ ∧
    (⟨6, 1, [], 0⟩ : SparseMatrix).cols ≠ (-2 : Int) + 1 :=
  ⟨rfl, rfl, by decide⟩

/-- C3, amended: with `maxRowOf`/`maxColOf` the running maxima STARTED FROM 0
(as the code does), every successful parse has final dimensions
`(maxRowOf+1) x (maxColOf+1)` when `maxRowOf ≥ rows` or `maxColOf ≥ cols` and
the declared dimensions otherwise; and a valid document whose entries all
have non-negative coordinates is never rejected, however large the
coordinates are. -/
theorem C3_amended :
    (∀ (doc : List Char) (m : SparseMatrix), loadFromFile doc = .ok m →
      ∃ r c es,
        jsParseInt (((validLinesOf doc).headD []).drop 5) = some r ∧
        jsParseInt ((((validLinesOf doc).drop 1).headD []).drop 5) = some c ∧
        0 < r ∧ 0 < c ∧
        parseEntries ((validLinesOf doc).drop 2) = some es ∧
        ((maxRowOf es ≥ r ∨ maxColOf es ≥ c) →
          m.rows = maxRowOf es + 1 ∧ m.cols = maxColOf es + 1) ∧
        (¬ (maxRowOf es ≥ r ∨ maxColOf es ≥ c) → m.rows = r ∧ m.cols = c)) ∧
    (∀ (doc : List Char) (r c : Int) (es : List (Int × Int × Int)),
      ¬ (validLinesOf doc).length < 3 →
      isPre "rows=".data ((validLinesOf doc).headD []) = true →
      isPre "cols=".data (((validLinesOf doc).drop 1).headD []) = true →
      jsParseInt (((validLinesOf doc).headD []).drop 5) = some r →
      jsParseInt ((((validLinesOf doc).drop 1).headD []).drop 5) = some c →
      0 < r → 0 < c →
      parseEntries ((validLinesOf doc).drop 2) = some es →
      (∀ e ∈ es, 0 ≤ e.1 ∧ 0 ≤ e.2.1) →
      ∃ m, loadFromFile doc = .ok m) := by
  constructor
  · intro doc m h
    obtain ⟨r, c, es, h1, h2, h3, h4, h5, h6, h7, h8, hgrow, hnogrow⟩ :=
      loadInner_ok_elim (loadFromFile_ok_iff.1 h)
    refine ⟨r, c, es, h4, h5, h6, h7, h8, ?_, ?_⟩
    · intro hg
      obtain ⟨hrows, hcols, -, -⟩ := commitEntries_spec (hgrow hg)
      exact ⟨hrows, hcols⟩
    · intro hg
      obtain ⟨hrows, hcols, -, -⟩ := commitEntries_spec (hnogrow hg)
      exact ⟨hrows, hcols⟩
  · intro doc r c es h1 h2 h3 h4 h5 h6 h7 h8 hnn
    have hinner := loadInner_eq_commit h1 h2 h3 h4 h5 h6 h7 h8
    by_cases hg : maxRowOf es ≥ r ∨ maxColOf es ≥ c
    · rw [if_pos hg] at hinner
      obtain ⟨m2, hok⟩ := @commitEntries_ok_of_good
        es ⟨maxRowOf es + 1, maxColOf es + 1, [], 0⟩
        (fun e he _ => by
          have hr := le_maxRowOf he
          have hc := le_maxColOf he
          have hn := hnn e he
          exact ⟨hn.1, by simpa using by omega, hn.2, by simpa using by omega⟩)
      exact ⟨m2, loadFromFile_ok_iff.2 (hinner.trans hok)⟩
    · rw [if_neg hg] at hinner
      push_neg at hg
      obtain ⟨m2, hok⟩ := @commitEntries_ok_of_good
        es ⟨r, c, [], 0⟩
        (fun e he _ => by
          have hr := le_maxRowOf he
          have hc := le_maxColOf he
          have hn := hnn e he
          exact ⟨hn.1, by simpa using by omega, hn.2, by simpa using by omega⟩)
      exact ⟨m2, loadFromFile_ok_iff.2 (hinner.trans hok)⟩

/-- Witness for the amended C3 at concrete documents. -/
theorem C3_witness :
    (∃ r c es,
      jsParseInt (((validLinesOf "rows=2\ncols=2\n(5, 0, 7)".data).headD []).drop 5) = some r ∧
      jsParseInt ((((validLinesOf "rows=2\ncols=2\n(5, 0, 7)".data).drop 1).headD []).drop 5)
        = some c ∧
      0 < r ∧ 0 < c ∧
      parseEntries ((validLinesOf "rows=2\ncols=2\n(5, 0, 7)".data).drop 2) = some es ∧
      ((maxRowOf es ≥ r ∨ maxColOf es ≥ c) →
        (⟨6, 1, [((5, 0), 7)], 1⟩ : SparseMatrix).rows = maxRowOf es + 1 ∧
        (⟨6, 1, [((5, 0), 7)], 1⟩ : SparseMatrix).cols = maxColOf es + 1) ∧
      (¬ (maxRowOf es ≥ r ∨ maxColOf es ≥ c) →
        (⟨6, 1, [((5, 0), 7)], 1⟩ : SparseMatrix).rows = r ∧
        (⟨6, 1, [((5, 0), 7)], 1⟩ : SparseMatrix).cols = c)) ∧
    (∃ m, loadFromFile "rows=2\ncols=2\n(5, 0, 7)".data = .ok m) :=
  ⟨C3_amended.1 "rows=2\ncols=2\n(5, 0, 7)".data ⟨6, 1, [((5, 0), 7)], 1⟩ rfl,
   C3_amended.2 "rows=2\ncols=2\n(5, 0, 7)".data 2 2 [(5, 0, 7)]
     (by decide) rfl rfl rfl rfl (by decide) (by decide) rfl (by decide)⟩

/-- C4: `A.multiply(B)` raises the dimension-mismatch error exactly when
`A.cols ≠ B.rows`; otherwise the result has dimensions `A.rows x B.cols` and
at every in-bounds coordinate `(i, j)` holds the standard matrix-product sum
over `k < A.cols` of `A(i,k) * B(k,j)` in exact integer arithmetic, where
`val` reads the stored value (an in-bounds `getElement` returns exactly
`.ok (val _ _ _)` by `getElement_ok`).  Stated for operands satisfying the
structural invariants every interface-built matrix has. -/
theorem C4_multiply (a b : SparseMatrix)
    (hina : InBounds a) (hinb : InBounds b)
    (hnda : NodupKeys a.elements) (hndb : NodupKeys b.elements) :
    (a.cols ≠ b.rows → multiply a b = .error mulMismatchMsg) ∧
    (a.cols = b.rows → ∃ p, multiply a b = .ok p ∧ p.rows = a.rows ∧ p.cols = b.cols ∧
      ∀ i j, 0 ≤ i → i < p.rows → 0 ≤ j → j < p.cols →
        getElement p i j =
          .ok (sumUpTo (fun k => val a i (k : Int) * val b ((k : Int)) j) a.cols.toNat)) := by
  constructor
  · intro hne
    unfold multiply
    rw [if_pos hne]
  · intro hc
    obtain ⟨p, hrun, hrows, hcols, hnd, hval⟩ := multiply_ok hc hina hinb hnda hndb
    refine ⟨p, hrun, hrows, hcols, ?_⟩
    intro i j h1 h2 h3 h4
    rw [getElement_ok h1 h2 h3 h4, hval i j]

/-- Witness for C4 at a concrete pair of matrices. -/
theorem C4_witness :
    InBounds ⟨2, 2, [((0, 0), 1), ((0, 1), 2), ((1, 0), 3), ((1, 1), 4)], 4⟩ ∧
    InBounds ⟨2, 2, [((0, 0), 1), ((1, 1), 1)], 2⟩ ∧
    (((⟨2, 2, [((0, 0), 1), ((0, 1), 2), ((1, 0), 3), ((1, 1), 4)], 4⟩ : SparseMatrix).cols ≠
        (⟨2, 2, [((0, 0), 1), ((1, 1), 1)], 2⟩ : SparseMatrix).rows →
      multiply ⟨2, 2, [((0, 0), 1), ((0, 1), 2), ((1, 0), 3), ((1, 1), 4)], 4⟩
        ⟨2, 2, [((0, 0), 1), ((1, 1), 1)], 2⟩ = .error mulMismatchMsg) ∧
    ((⟨2, 2, [((0, 0), 1), ((0, 1), 2), ((1, 0), 3), ((1, 1), 4)], 4⟩ : SparseMatrix).cols =
        (⟨2, 2, [((0, 0), 1), ((1, 1), 1)], 2⟩ : SparseMatrix).rows →
      ∃ p, multiply ⟨2, 2, [((0, 0), 1), ((0, 1), 2), ((1, 0), 3), ((1, 1), 4)], 4⟩
          ⟨2, 2, [((0, 0), 1), ((1, 1), 1)], 2⟩ = .ok p ∧
        p.rows = 2 ∧ p.cols = 2 ∧
        ∀ i j, 0 ≤ i → i < p.rows → 0 ≤ j → j < p.cols →
          getElement p i j = .ok (sumUpTo (fun k =>
            val ⟨2, 2, [((0, 0), 1), ((0, 1), 2), ((1, 0), 3), ((1, 1), 4)], 4⟩ i (k : Int) *
            val ⟨2, 2, [((0, 0), 1), ((1, 1), 1)], 2⟩ ((k : Int)) j) (2 : Int).toNat))) :=
  ⟨by decide, by decide,
   C4_multiply ⟨2, 2, [((0, 0), 1), ((0, 1), 2), ((1, 0), 3), ((1, 1), 4)], 4⟩
     ⟨2, 2, [((0, 0), 1), ((1, 1), 1)], 2⟩ (by decide) (by decide) (by decide) (by decide)⟩

/-- C5: for same-shaped matrices satisfying the structural invariants,
`A.add(B).subtract(B)` succeeds and equals `A`: same dimensions, the same
value at every coordinate, and consequently `getElement` agrees with `A`
everywhere (including the error cases, since the bounds agree). -/
theorem C5_add_subtract (a b : SparseMatrix)
    (h1 : a.rows = b.rows) (h2 : a.cols = b.cols)
    (hina : InBounds a) (hinb : InBounds b)
    (hnda : NodupKeys a.elements) (hndb : NodupKeys b.elements) :
    ∃ s d, add a b = .ok s ∧ subtract s b = .ok d ∧
      d.rows = a.rows ∧ d.cols = a.cols ∧
      (∀ i j, val d i j = val a i j) ∧
      (∀ i j, getElement d i j = getElement a i j) := by
  obtain ⟨s, hs, hsrows, hscols, hsnd, hsIB, hsval⟩ := add_ok h1 h2 hina hinb hnda hndb
  obtain ⟨d, hd, hdrows, hdcols, hdnd, hdIB, hdval⟩ :=
    subtract_ok (a := s) (b := b) (by rw [hsrows, h1]) (by rw [hscols, h2]) hsIB hinb hsnd hndb
  have hvals : ∀ i j, val d i j = val a i j := by
    intro i j
    rw [hdval i j, hsval i j]
    ring
  refine ⟨s, d, hs, hd, by rw [hdrows, hsrows], by rw [hdcols, hscols], hvals, ?_⟩
  intro i j
  unfold getElement
  rw [show d.rows = a.rows from by rw [hdrows, hsrows],
      show d.cols = a.cols from by rw [hdcols, hscols]]
  by_cases hb : i < 0 ∨ i ≥ a.rows ∨ j < 0 ∨ j ≥ a.cols
  · rw [if_pos hb, if_pos hb]
  · rw [if_neg hb, if_neg hb]
    exact congrArg Except.ok (hvals i j)

/-- Witness for C5 at a concrete pair of matrices. -/
theorem C5_witness :
    InBounds ⟨2, 2, [((0, 0), 3), ((1, 1), -4)], 2⟩ ∧
    InBounds ⟨2, 2, [((0, 0), 1), ((1, 0), 2)], 2⟩ ∧
    ∃ s d, add ⟨2, 2, [((0, 0), 3), ((1, 1), -4)], 2⟩ ⟨2, 2, [((0, 0), 1), ((1, 0), 2)], 2⟩
        = .ok s ∧
      subtract s ⟨2, 2, [((0, 0), 1), ((1, 0), 2)], 2⟩ = .ok d ∧
      d.rows = 2 ∧ d.cols = 2 ∧
      (∀ i j, val d i j = val ⟨2, 2, [((0, 0), 3), ((1, 1), -4)], 2⟩ i j) ∧
      (∀ i j, getElement d i j = getElement ⟨2, 2, [((0, 0), 3), ((1, 1), -4)], 2⟩ i j) :=
  ⟨by decide, by decide,
   C5_add_subtract ⟨2, 2, [((0, 0), 3), ((1, 1), -4)], 2⟩ ⟨2, 2, [((0, 0), 1), ((1, 0), 2)], 2⟩
     rfl rfl (by decide) (by decide) (by decide) (by decide)⟩

/-- C6: every entry point of the public interface yields matrices satisfying
the sparsity invariant: no stored entry has value zero, and `elementCount`
equals the number of stored entries.  Construction with dimensions and
construction by parsing satisfy it outright; `setElement` preserves it; and
any successful `add`, `subtract` or `multiply` result satisfies it
unconditionally because results are built from an empty matrix through
`setElement` alone. -/
theorem C6_invariants :
    (∀ r c : Int, Sparsity (newMatrix r c)) ∧
    (∀ (doc : List Char) (m : SparseMatrix), loadFromFile doc = .ok m → Sparsity m) ∧
    (∀ (m : SparseMatrix) (r c v : Int) (m2 : SparseMatrix),
      Sparsity m → setElement m r c v = .ok m2 → Sparsity m2) ∧
    (∀ a b s : SparseMatrix, add a b = .ok s → Sparsity s) ∧
    (∀ a b s : SparseMatrix, subtract a b = .ok s → Sparsity s) ∧
    (∀ a b p : SparseMatrix, multiply a b = .ok p → Sparsity p) := by
  refine ⟨sparsity_newMatrix, ?_, ?_, ?_, ?_, ?_⟩
  · intro doc m h
    exact (loadInner_wf (loadFromFile_ok_iff.1 h)).2.2.2.2
  · intro m r c v m2 hs h
    exact (setElement_spec h).2.2.2.2.2.1 hs
  · intro a b s h
    unfold add at h
    by_cases hd : a.rows ≠ b.rows ∨ a.cols ≠ b.cols
    · rw [if_pos hd] at h
      simp at h
    · rw [if_neg hd] at h
      cases hcopy : copyEntries (newMatrix a.rows a.cols) a.elements with
      | error e =>
        rw [hcopy] at h
        simp at h
      | ok r1 =>
        rw [hcopy] at h
        exact addEntries_sparsity h (copyEntries_sparsity hcopy (sparsity_newMatrix _ _))
  · intro a b s h
    unfold subtract at h
    by_cases hd : a.rows ≠ b.rows ∨ a.cols ≠ b.cols
    · rw [if_pos hd] at h
      simp at h
    · rw [if_neg hd] at h
      cases hcopy : copyEntries (newMatrix a.rows a.cols) a.elements with
      | error e =>
        rw [hcopy] at h
        simp at h
      | ok r1 =>
        rw [hcopy] at h
        exact subEntries_sparsity h (copyEntries_sparsity hcopy (sparsity_newMatrix _ _))
  · intro a b p h
    unfold multiply at h
    by_cases hd : a.cols ≠ b.rows
    · rw [if_pos hd] at h
      simp at h
    · rw [if_neg hd] at h
      exact multOuter_sparsity h (sparsity_newMatrix _ _)

/-- Witness for C6: the `setElement` conjunct applied at a concrete matrix. -/
theorem C6_witness :
    Sparsity ⟨2, 2, [((0, 0), 5)], 1⟩ ∧
    Sparsity ⟨2, 2, [((0, 0), 5), ((1, 1), 7)], 2⟩ :=
  ⟨by decide,
   C6_invariants.2.2.1 ⟨2, 2, [((0, 0), 5)], 1⟩ 1 1 7
     ⟨2, 2, [((0, 0), 5), ((1, 1), 7)], 2⟩ (by decide) rfl⟩

/-- C7: the concrete malformed document `rows=2\ncols=2\n(1,1,x)` makes the
loader fail with the uniform wrong-format error and no matrix; and in
general, whenever any entry line of a document fails to parse (in particular
when a numeric token contains a non-digit character), the whole load fails
with the uniform wrong-format error, so no partial matrix is ever returned. -/
theorem C7_format_error :
    loadFromFile "rows=2\ncols=2\n(1,1,x)".data = .error wrongFormatMsg ∧
    ∀ doc : List Char, (∃ l ∈ (validLinesOf doc).drop 2, parseElementLine l = none) →
      loadFromFile doc = .error wrongFormatMsg := by
  refine ⟨rfl, ?_⟩
  rintro doc ⟨l, hl, hbad⟩
  have hpe := parseEntries_none_of_bad hl hbad
  cases hload : loadInner doc with
  | ok m =>
    obtain ⟨r, c, es, -, -, -, -, -, -, -, h8, -, -⟩ := loadInner_ok_elim hload
    rw [hpe] at h8
    cases h8
  | error msg =>
    rw [loadFromFile_error_eq hload]
    rcases loadInner_error_cases hload with h | h | h | h | h | h
    · subst h
      rw [if_pos (by decide)]
    · subst h
      rw [if_pos (by decide)]
    · subst h
      rw [if_pos (by decide)]
    · subst h
      rw [if_pos (by decide)]
    · obtain ⟨hmsg, -⟩ := h
      subst hmsg
      rw [if_pos (by decide)]
    · obtain ⟨-, es, hes⟩ := h
      rw [hpe] at hes
      cases hes

/-- Witness for C7: the general part applied at another concrete document. -/
theorem C7_witness :
    loadFromFile "rows=1\ncols=1\n(0, 0, 9y)".data = .error wrongFormatMsg :=
  C7_format_error.2 "rows=1\ncols=1\n(0, 0, 9y)".data
    ⟨"(0, 0, 9y)".data, by decide, by decide⟩

/-- C8: `getElement` and `setElement` raise the out-of-bounds error exactly
when `row < 0`, `col < 0`, `row ≥ rows` or `col ≥ cols`; an in-bounds
`getElement` returns the stored value or 0 when absent (the embedding is
pure, so no call mutates the matrix); and on a 2x2 matrix `getElement 2 0`
raises the out-of-bounds error. -/
theorem C8_bounds :
    (∀ (m : SparseMatrix) (r c : Int),
      (getElement m r c = .error oobMsg ↔ (r < 0 ∨ c < 0 ∨ r ≥ m.rows ∨ c ≥ m.cols))) ∧
    (∀ (m : SparseMatrix) (r c v : Int),
      (setElement m r c v = .error oobMsg ↔ (r < 0 ∨ c < 0 ∨ r ≥ m.rows ∨ c ≥ m.cols))) ∧
    (∀ (m : SparseMatrix) (r c : Int), ¬ (r < 0 ∨ c < 0 ∨ r ≥ m.rows ∨ c ≥ m.cols) →
      getElement m r c = .ok ((lookupKey m.elements (r, c)).getD 0)) ∧
    getElement (newMatrix 2 2) 2 0 = .error oobMsg := by
  refine ⟨?_, ?_, ?_, rfl⟩
  · intro m r c
    rw [getElement_error_iff]
    constructor <;> (intro h; omega)
  · intro m r c v
    rw [setElement_error_iff]
    constructor <;> (intro h; omega)
  · intro m r c h
    push_neg at h
    exact getElement_ok (by omega) (by omega) (by omega) (by omega)

/-- Witness for C8: the in-bounds read conjunct at a concrete matrix. -/
theorem C8_witness :
    ¬ ((1 : Int) < 0 ∨ (1 : Int) < 0 ∨
        (1 : Int) ≥ (⟨2, 2, [((1, 1), 9)], 1⟩ : SparseMatrix).rows ∨
        (1 : Int) ≥ (⟨2, 2, [((1, 1), 9)], 1⟩ : SparseMatrix).cols) ∧
    getElement ⟨2, 2, [((1, 1), 9)], 1⟩ 1 1 = .ok 9 :=
  ⟨by decide, C8_bounds.2.2.1 ⟨2, 2, [((1, 1), 9)], 1⟩ 1 1 (by decide)⟩

/-- C9: a bare minus sign is accepted by the hand-written integer parser: the
loop body never runs, so it returns JavaScript `-0`, which is `=== 0`; the
model returns `some 0` directly.  Hence `(0, 0, -)` parses as the zero-valued
entry `(0, 0, 0)` and is not stored, a bare `-` as a row token parses as
coordinate 0, and both documents load successfully instead of raising the
format error. -/
theorem C9_bare_minus :
    jsParseInt ['-'] = some 0 ∧
    parseElementLine "(0, 0, -)".data = some (0, 0, 0) ∧
    parseElementLine "(-, 0, 5)".data = some (0, 0, 5) ∧
    loadFromFile "rows=1\ncols=1\n(0, 0, -)".data = .ok ⟨1, 1, [], 0⟩ ∧
    loadFromFile "rows=1\ncols=1\n(-, 0, 5)".data = .ok ⟨1, 1, [((0, 0), 5)], 1⟩ :=
  ⟨rfl, rfl, rfl, rfl, rfl⟩

/-- C10: for an otherwise well-formed document (valid header, all entry lines
parseable), if some parsed entry has a negative row or column coordinate and
a non-zero value, loading fails with the out-of-bounds error thrown by
`setElement` in the commit pass and rethrown unchanged by the catch clause
(its message does not contain "wrong format"); if every negative-coordinate
entry has value zero, the entries are dropped and loading succeeds. -/
theorem C10_negative (doc : List Char) (r c : Int) (es : List (Int × Int × Int))
    (h1 : ¬ (validLinesOf doc).length < 3)
    (h2 : isPre "rows=".data ((validLinesOf doc).headD []) = true)
    (h3 : isPre "cols=".data (((validLinesOf doc).drop 1).headD []) = true)
    (h4 : jsParseInt (((validLinesOf doc).headD []).drop 5) = some r)
    (h5 : jsParseInt ((((validLinesOf doc).drop 1).headD []).drop 5) = some c)
    (h6 : 0 < r) (h7 : 0 < c)
    (h8 : parseEntries ((validLinesOf doc).drop 2) = some es) :
    ((∃ e ∈ es, (e.1 < 0 ∨ e.2.1 < 0) ∧ e.2.2 ≠ 0) →
      loadFromFile doc = .error oobMsg) ∧
    ((∀ e ∈ es, (e.1 < 0 ∨ e.2.1 < 0) → e.2.2 = 0) →
      ∃ m, loadFromFile doc = .ok m) := by
  have hinner := loadInner_eq_commit h1 h2 h3 h4 h5 h6 h7 h8
  constructor
  · rintro ⟨e, he, hneg, hnz⟩
    have herr : loadInner doc = .error oobMsg := by
      by_cases hg : maxRowOf es ≥ r ∨ maxColOf es ≥ c
      · rw [if_pos hg] at hinner
        rw [hinner]
        exact commitEntries_error_of_bad ⟨e, he, hnz, by
          rcases hneg with hn | hn
          · exact Or.inl hn
          · exact Or.inr (Or.inr (Or.inl hn))⟩
      · rw [if_neg hg] at hinner
        rw [hinner]
        exact commitEntries_error_of_bad ⟨e, he, hnz, by
          rcases hneg with hn | hn
          · exact Or.inl hn
          · exact Or.inr (Or.inr (Or.inl hn))⟩
    rw [loadFromFile_error_eq herr, if_neg (by decide)]
  · intro hzero
    by_cases hg : maxRowOf es ≥ r ∨ maxColOf es ≥ c
    · rw [if_pos hg] at hinner
      obtain ⟨m2, hok⟩ := @commitEntries_ok_of_good
        es ⟨maxRowOf es + 1, maxColOf es + 1, [], 0⟩
        (fun e he hnz => by
          have hr := le_maxRowOf he
          have hc := le_maxColOf he
          have hrnn : 0 ≤ e.1 := by
            by_contra hcon
            exact hnz (hzero e he (Or.inl (by omega)))
          have hcnn : 0 ≤ e.2.1 := by
            by_contra hcon
            exact hnz (hzero e he (Or.inr (by omega)))
          exact ⟨hrnn, by simpa using by omega, hcnn, by simpa using by omega⟩)
      exact ⟨m2, loadFromFile_ok_iff.2 (hinner.trans hok)⟩
    · rw [if_neg hg] at hinner
      push_neg at hg
      obtain ⟨m2, hok⟩ := @commitEntries_ok_of_good
        es ⟨r, c, [], 0⟩
        (fun e he hnz => by
          have hr := le_maxRowOf he
          have hc := le_maxColOf he
          have hrnn : 0 ≤ e.1 := by
            by_contra hcon
            exact hnz (hzero e he (Or.inl (by omega)))
          have hcnn : 0 ≤ e.2.1 := by
            by_contra hcon
            exact hnz (hzero e he (Or.inr (by omega)))
          exact ⟨hrnn, by simpa using by omega, hcnn, by simpa using by omega⟩)
      exact ⟨m2, loadFromFile_ok_iff.2 (hinner.trans hok)⟩

/-- Witness for C10 at concrete documents: a negative coordinate with value 5
yields the out-of-bounds error; with value 0 the load succeeds. -/
theorem C10_witness :
    loadFromFile "rows=2\ncols=2\n(-1, 0, 5)".data = .error oobMsg ∧
    ∃ m, loadFromFile "rows=2\ncols=2\n(-1, 0, 0)".data = .ok m :=
  ⟨(C10_negative "rows=2\ncols=2\n(-1, 0, 5)".data 2 2 [(-1, 0, 5)]
      (by decide) rfl rfl rfl rfl (by decide) (by decide) rfl).1
      ⟨(-1, 0, 5), by decide, by decide, by decide⟩,
   (C10_negative "rows=2\ncols=2\n(-1, 0, 0)".data 2 2 [(-1, 0, 0)]
      (by decide) rfl rfl rfl rfl (by decide) (by decide) rfl).2
      (by decide)⟩

end SpecProof
